import Mathlib

/-!
# Verification development for the npm-package MCP server

Shallow embedding of `src/server.ts` (class `NpmPackageServer`) of the
`npm-package-mcp-server` repository, together with proofs settling the
claims about its specification.

Modelling conventions:
* JavaScript strings are Lean `String`s; most primitive operations
  (`split`, `startsWith`, `includes`, ...) are re-implemented over the
  underlying `List Char` so that all definitions are executable and
  kernel-reducible.
* The Node.js `path` module functions used by the server
  (`normalize`, `join`, `resolve`, `extname`, `relative`) are embedded
  for the POSIX flavour, following the algorithms of Node's
  `path.posix` implementation.
* Filesystem state is an explicit tree (`FSTree`) or an abstract record
  of query functions (`FSOps`); filesystem accesses performed by a
  function are returned as an explicit trace.
* Errors: `McpError` carries an `ErrorCode` and a message, mirroring the
  MCP SDK; arbitrary thrown JavaScript errors are `JsErr` (either a
  plain `Error` or an `McpError`), with `JsErr.message` reproducing the
  SDK's `MCP error <code>: <msg>` message format.
-/

namespace NpmMcp

/-! ## Basic string utilities (re-implemented over `List Char`) -/

/-- Character-level prefix test: `listPrefix p l` is true iff `p` is a
prefix of `l`.  Mirrors JavaScript `String.prototype.startsWith`. -/
def listPrefix : List Char → List Char → Bool
  | [], _ => true
  | _ :: _, [] => false
  | a :: as_, b :: bs_ => if a = b then listPrefix as_ bs_ else false

/-- Model of `s.startsWith p` for strings. -/
def strStartsWith (s p : String) : Bool := listPrefix p.data s.data

/-- Does the character list contain the two-character substring `..`?
Mirrors JavaScript `s.includes('..')`. -/
def hasDotDot : List Char → Bool
  | '.' :: '.' :: _ => true
  | _ :: rest => hasDotDot rest
  | [] => false

/-- Model of `s.includes(c)` for a single character. -/
def strContainsChar (s : String) (c : Char) : Bool := s.data.contains c

/-! ## MCP error model -/

/-- The two MCP SDK error codes this server uses. -/
inductive ErrorCode where
  | invalidParams
  | internalError
deriving DecidableEq, Repr

/-- The numeric code rendered into an `McpError`'s message, as in the
MCP SDK (`InvalidParams = -32602`, `InternalError = -32603`). -/
def ErrorCode.num : ErrorCode → String
  | .invalidParams => "-32602"
  | .internalError => "-32603"

/-- An MCP protocol error: a tagged code plus a human-readable message. -/
structure McpError where
  code : ErrorCode
  message : String
deriving DecidableEq, Repr

/-- A thrown JavaScript error: either a plain `Error` or an `McpError`.
(`McpError extends Error` in the SDK.) -/
inductive JsErr where
  | plain (msg : String)
  | mcp (code : ErrorCode) (msg : String)
deriving DecidableEq, Repr

/-- The `.message` property of a thrown error.  For an `McpError` the
SDK prefixes the code: `MCP error <code>: <msg>`. -/
def JsErr.message : JsErr → String
  | .plain m => m
  | .mcp c m => "MCP error " ++ c.num ++ ": " ++ m

/-! ## `validatePackageName` (src/server.ts lines 768-785)

The allow-list regular expression is
`^(@[a-z0-9-~][a-z0-9-._~]*\/)?[a-z0-9-~][a-z0-9-._~]*$` with the `i`
flag.  Its character classes are embedded directly. -/

/-- First character class `[a-z0-9-~]` (case-insensitive). -/
def nameFirstChar (c : Char) : Bool :=
  ('a' ≤ c ∧ c ≤ 'z') ∨ ('A' ≤ c ∧ c ≤ 'Z') ∨ ('0' ≤ c ∧ c ≤ '9') ∨ c = '-' ∨ c = '~'

/-- Continuation character class `[a-z0-9-._~]` (case-insensitive). -/
def nameRestChar (c : Char) : Bool :=
  nameFirstChar c ∨ c = '.' ∨ c = '_'

/-- One name segment: `[a-z0-9-~][a-z0-9-._~]*`. -/
def segOkChars : List Char → Bool
  | [] => false
  | c :: cs => nameFirstChar c && cs.all nameRestChar

/-- Split a character list at every `/`.  (Used both for the npm name
pattern, which has at most one `/`, and for the POSIX path model.) -/
def chSplit : List Char → List (List Char)
  | [] => [[]]
  | '/' :: rest => [] :: chSplit rest
  | c :: rest =>
    match chSplit rest with
    | s :: ss => (c :: s) :: ss
    | [] => [[c]]

/-- The anchored allow-list test
`^(@[a-z0-9-~][a-z0-9-._~]*\/)?[a-z0-9-~][a-z0-9-._~]*$/i`.
A scoped name is `@` followed by exactly two `/`-separated segments;
an unscoped name is a single segment (the segment classes contain no
`/`, so a stray `/` fails the segment test). -/
def npmNamePattern (s : String) : Bool :=
  match s.data with
  | '@' :: rest =>
    match chSplit rest with
    | [a, b] => segOkChars a && segOkChars b
    | _ => false
  | l => segOkChars l

/-- Model of `validatePackageName` (src/server.ts lines 768-785): reject names
failing the allow-list pattern, then reject names containing `..`, a
null byte, or a newline. -/
def validatePackageName (packageName : String) : Except McpError Unit :=
  if ¬ npmNamePattern packageName then
    .error ⟨.invalidParams,
      "Invalid package name format. Package names must follow npm naming conventions."⟩
  else if hasDotDot packageName.data ∨ strContainsChar packageName (Char.ofNat 0)
      ∨ strContainsChar packageName '\n' then
    .error ⟨.invalidParams, "Invalid package name: contains prohibited characters"⟩
  else
    .ok ()

/-! ## POSIX path model (Node.js `path.posix`)

Paths are strings; segment lists are `List (List Char)` obtained by
splitting on `/`.  `normAccC` is Node's `normalizeStringPosix` loop:
skip empty and `.` segments, resolve `..` by popping (or, for relative
paths, by keeping a leading run of `..`). -/

/-- The `..` segment. -/
def ddC : List Char := ['.', '.']

/-- Join segments with `/` (inverse of `chSplit`). -/
def chJoin : List (List Char) → List Char
  | [] => []
  | [s] => s
  | s :: rest => s ++ '/' :: chJoin rest

/-- One pass of Node's `normalizeStringPosix`: `acc` is the processed
output in reverse order; `allowUp` is `allowAboveRoot` (true for
relative paths). -/
def normAccC (allowUp : Bool) : List (List Char) → List (List Char) → List (List Char)
  | acc, [] => acc
  | acc, seg :: rest =>
    if seg = [] ∨ seg = ['.'] then normAccC allowUp acc rest
    else if seg = ddC then
      match acc with
      | [] => normAccC allowUp (if allowUp then [ddC] else []) rest
      | a :: as_ =>
        if a = ddC then normAccC allowUp (if allowUp then ddC :: a :: as_ else a :: as_) rest
        else normAccC allowUp as_ rest
    else normAccC allowUp (seg :: acc) rest

/-- Normalized segment list of a split path. -/
def normPartsC (allowUp : Bool) (segs : List (List Char)) : List (List Char) :=
  (normAccC allowUp [] segs).reverse

/-- One step of `normAccC` (how a single segment transforms the
accumulator); used to reason about the fold. -/
def normStep1 (allowUp : Bool) (acc : List (List Char)) (seg : List Char) :
    List (List Char) :=
  if seg = [] ∨ seg = ['.'] then acc
  else if seg = ddC then
    match acc with
    | [] => if allowUp then [ddC] else []
    | a :: as_ => if a = ddC then (if allowUp then ddC :: a :: as_ else a :: as_) else as_
  else seg :: acc

/-- The segments `normAccC` keeps when no `..` is present. -/
def keptSegs (segs : List (List Char)) : List (List Char) :=
  segs.filter (fun s => ¬ (s = [] ∨ s = ['.']))

/-- Does the string start with `/`? -/
def strIsAbs (s : String) : Bool :=
  match s.data with
  | '/' :: _ => true
  | _ => false

/-- Does the string end with `/`? -/
def strEndsSlash (s : String) : Bool :=
  match s.data.getLast? with
  | some '/' => true
  | _ => false

/-- Node's `path.posix.normalize`.  Resolves `.` and `..` segments and
repeated slashes (`allowAboveRoot` is true exactly for relative paths,
which keep a leading `..` run); keeps a single trailing slash when the
input had one and the result is nonempty; returns `.` for an empty
result. -/
def posixNormalize (s : String) : String :=
  if s = "" then "." else
  if strIsAbs s then
    String.mk ('/' :: chJoin (normPartsC false (chSplit s.data))
      ++ (if strEndsSlash s = true ∧ chJoin (normPartsC false (chSplit s.data)) ≠ []
          then ['/'] else []))
  else if chJoin (normPartsC true (chSplit s.data)) = [] then
    (if strEndsSlash s then "./" else ".")
  else
    String.mk (chJoin (normPartsC true (chSplit s.data))
      ++ (if strEndsSlash s then ['/'] else []))

/-- Node's `path.posix.join` for two arguments: drop empty parts, glue
with `/`, normalize. -/
def posixJoin (a b : String) : String :=
  if a = "" ∧ b = "" then "."
  else if a = "" then posixNormalize b
  else if b = "" then posixNormalize a
  else posixNormalize (a ++ "/" ++ b)

/-- Node's `path.posix.resolve` for one argument, for the absolute
inputs this server passes: normalize with `allowAboveRoot = false` and
no trailing slash.  (For a relative argument Node would resolve against
the working directory; the server only ever resolves absolute paths, so
the relative branch here resolves against an empty root.) -/
def posixResolve (s : String) : String :=
  if strIsAbs s then
    String.mk ('/' :: chJoin (normPartsC false (chSplit s.data)))
  else
    let body := chJoin (normPartsC true (chSplit s.data))
    if body = [] then "." else String.mk body

/-- The anchored replace `.replace(/^(\.\.[\/\\])+/, '')`: repeatedly
strip a leading `../` or `..\` triple. -/
def stripDD : List Char → List Char
  | '.' :: '.' :: c :: rest =>
    if c = '/' ∨ c = '\\' then stripDD rest else '.' :: '.' :: c :: rest
  | l => l

/-- String version of `stripDD`. -/
def stripDDStr (s : String) : String := String.mk (stripDD s.data)

/-- The resolved candidate path computed by `validateAndResolvePath`:
normalize the user path, strip leading `../`/`..\` runs, join onto the
base, resolve. -/
def resolvedPathOf (basePath userPath : String) : String :=
  posixResolve (posixJoin basePath (stripDDStr (posixNormalize userPath)))

/-- Model of `validateAndResolvePath` (src/server.ts lines 746-766): compute the
resolved candidate path and require that it start (as a string) with
the resolved base path. -/
def validateAndResolvePath (basePath userPath : String) : Except McpError String :=
  if strStartsWith (resolvedPathOf basePath userPath) (posixResolve basePath) then
    .ok (resolvedPathOf basePath userPath)
  else .error ⟨.invalidParams, "Access denied: Path traversal attempt detected"⟩

/-! ## Tool results and the abstract filesystem -/

/-- A tool call's successful text response (the server always returns a
single text content block). -/
structure ToolResult where
  text : String
deriving DecidableEq, Repr

/-- Abstract filesystem queries used by `getSpecificFile`
(`fs.existsSync`, `stats.isFile()`, `fs.readFileSync`). -/
structure FSOps where
  pathExists : String → Bool
  isFile : String → Bool
  readFile : String → Except String String

/-- Model of `getSpecificFile` (src/server.ts lines 527-554).  Returns the
outcome together with the trace of paths on which a filesystem
operation (existence check, stat, read) was performed, in order.  The
validation failure is re-tagged `InvalidParams` with the inner error's
message (`error.message` of an `McpError` carries the SDK's
`MCP error <code>: <msg>` prefix). -/
def getSpecificFile (ops : FSOps) (extractedPath filePath : String) :
    Except JsErr ToolResult × List String :=
  match validateAndResolvePath extractedPath filePath with
  | .error e =>
    (.error (.mcp .invalidParams ("Invalid file path: " ++ JsErr.message (.mcp e.code e.message))), [])
  | .ok fullFilePath =>
    if ¬ ops.pathExists fullFilePath then
      (.error (.plain ("File not found: " ++ filePath)), [fullFilePath])
    else if ¬ ops.isFile fullFilePath then
      (.error (.plain ("Path is not a file: " ++ filePath)), [fullFilePath, fullFilePath])
    else
      match ops.readFile fullFilePath with
      | .ok content =>
        (.ok ⟨"File: " ++ filePath ++ "\n\n" ++ content⟩,
          [fullFilePath, fullFilePath, fullFilePath])
      | .error m =>
        (.error (.plain ("Failed to read file " ++ filePath ++ ": " ++ m)),
          [fullFilePath, fullFilePath, fullFilePath])

/-! ## Spec-side path vocabulary -/

/-- An absolute path assembled from `/`-free segments. -/
def absC (bs : List (List Char)) : List Char := '/' :: chJoin bs

/-- String form of `absC`. -/
def absStr (bs : List (List Char)) : String := String.mk (absC bs)

/-- A well-formed path segment: nonempty, slash-free, not `.`, not `..`. -/
def wfSeg (p : List Char) : Bool :=
  p ≠ [] ∧ ¬ p.contains '/' ∧ p ≠ ['.'] ∧ p ≠ ddC

/-- All segments well-formed. -/
def wfSegsAll (bs : List (List Char)) : Bool := bs.all wfSeg

/-- Spec-side containment: `p` is within root `r` iff it is `r` itself
or lies strictly below it (`r/` is a prefix of `p`). -/
def withinRoot (r p : String) : Bool :=
  p = r ∨ strStartsWith p (r ++ "/")

/-- Does the character list begin with `../` or `..\` (the shape
`stripDD` strips)? -/
def startsDD : List Char → Bool
  | '.' :: '.' :: c :: _ => c = '/' ∨ c = '\\'
  | _ => false

/-- The `..` segments of a split path form an initial run: the list is
some number of `..` segments followed by segments none of which is
`..`. -/
def DDRun (xs : List (List Char)) : Prop :=
  ∃ k ys, xs = List.replicate k ddC ++ ys ∧ ddC ∉ ys

/-- A segment the normalizer pushes unchanged: not empty, not `.`, not
`..`. -/
def cleanSeg (s : List Char) : Prop := ¬ (s = [] ∨ s = ['.']) ∧ s ≠ ddC

/-! ## Extracted-archive filesystem trees and the directory walks -/

/-- An extracted archive: a tree of named entries.  A `file` carries its
text content; a `dir` carries its child entries in `readdirSync` order. -/
inductive FSTree where
  | file (content : String) : FSTree
  | dir (children : List (String × FSTree)) : FSTree

/-- Does the name start with a dot (`item.startsWith('.')`)? -/
def strStartsDot (s : String) : Bool :=
  match s.data with
  | '.' :: _ => true
  | _ => false

/-- Model of `getAllFiles` (src/server.ts lines 707-736) as a walk over the
children of the extraction root, producing each found file's path as
its list of name segments relative to the root (the source accumulates
absolute paths with `path.join` and later relativizes them with
`path.relative`, which yields exactly these segments glued with `/`).
A directory is descended into only if its name does not start with `.`;
a file is recorded regardless of its name. -/
def walkChildren : List (String × FSTree) → List (List String)
  | [] => []
  | (n, FSTree.file _) :: rest => [n] :: walkChildren rest
  | (n, FSTree.dir cs) :: rest =>
    (if strStartsDot n then [] else (walkChildren cs).map (fun p => n :: p))
      ++ walkChildren rest

/-- Glue relative path segments with `/` (the effect of
`path.relative(extractedPath, fullPath)` on the walk's paths). -/
def joinSegs : List String → String
  | [] => ""
  | [s] => s
  | s :: rest => s ++ "/" ++ joinSegs rest

/-- The sorted relative file listing produced by `listPackageFiles`
(src/server.ts lines 465-467): relativize, then `sort()` with the
default lexicographic string comparator. -/
def filesListing (cs : List (String × FSTree)) : List String :=
  List.insertionSort (· ≤ ·) ((walkChildren cs).map joinSegs)

/-- Well-formedness of a directory tree as a real filesystem guarantees
it: every entry name is nonempty, contains no `/`, and is distinct from
its siblings' names. -/
def wfEntries : List (String × FSTree) → Bool
  | [] => true
  | (n, FSTree.file _) :: rest =>
    n ≠ "" && ¬ n.data.contains '/' && rest.all (fun e => e.1 ≠ n) && wfEntries rest
  | (n, FSTree.dir cs) :: rest =>
    n ≠ "" && ¬ n.data.contains '/' && rest.all (fun e => e.1 ≠ n)
      && wfEntries cs && wfEntries rest

/-- Spec-side: `segs` is the relative path of a regular file reachable
by the `getAllFiles` walk (no directory on the way has a name starting
with `.`). -/
inductive VisIn : List (String × FSTree) → List String → Prop
  | here {cs : List (String × FSTree)} {n : String} {c : String}
      (h : (n, FSTree.file c) ∈ cs) : VisIn cs [n]
  | deeper {cs : List (String × FSTree)} {n : String} {cs' : List (String × FSTree)}
      {p : List String} (h : (n, FSTree.dir cs') ∈ cs)
      (hdot : strStartsDot n = false) (hp : VisIn cs' p) : VisIn cs (n :: p)

/-- Spec-side: `segs` is the relative path of a regular file anywhere
under the root (no visibility restriction). -/
inductive AnyFileIn : List (String × FSTree) → List String → Prop
  | here {cs : List (String × FSTree)} {n : String} {c : String}
      (h : (n, FSTree.file c) ∈ cs) : AnyFileIn cs [n]
  | deeper {cs : List (String × FSTree)} {n : String} {cs' : List (String × FSTree)}
      {p : List String} (h : (n, FSTree.dir cs') ∈ cs)
      (hp : AnyFileIn cs' p) : AnyFileIn cs (n :: p)

/-! ## `findCodeFiles` and its filters (src/server.ts lines 668-744) -/

/-- Model of `CODE_EXTENSIONS` (src/server.ts line 103). -/
def CODE_EXTENSIONS : List String :=
  [".js", ".ts", ".jsx", ".tsx", ".mjs", ".cjs", ".json"]

/-- Model of `SKIP_DIRECTORIES` (src/server.ts line 104). -/
def SKIP_DIRECTORIES : List String :=
  [".git", ".svn", ".hg", "node_modules", ".DS_Store", "__pycache__"]

/-- Node's `path.extname` on a bare file name: the suffix from the last
dot, except that a name with no dot, a name whose only dot is its first
character (a "hidden" file like `.gitignore`), and the name `..` have
no extension. -/
def extname (n : String) : String :=
  let l := n.data
  let suf := (l.reverse.takeWhile (fun c => c ≠ '.')).reverse
  if suf.length = l.length then ""
  else if l.length = suf.length + 1 then ""
  else if l = ['.', '.'] then ""
  else String.mk ('.' :: suf)

/-- ASCII lower-casing (`String.prototype.toLowerCase` restricted to
the ASCII file extensions that matter here). -/
def toLowerStr (s : String) : String := String.mk (s.data.map Char.toLower)

/-- Model of `isCodeFile` (src/server.ts lines 738-740). -/
def isCodeFile (fileName : String) : Bool :=
  CODE_EXTENSIONS.contains (toLowerStr (extname fileName))

/-- Model of `shouldSkipDirectory` (src/server.ts lines 742-744). -/
def shouldSkipDirectory (dirName : String) : Bool :=
  strStartsDot dirName || SKIP_DIRECTORIES.contains dirName

/-- Model of `findCodeFiles` (src/server.ts lines 668-705) as a walk over the
children of the extraction root: descend into a directory unless
`shouldSkipDirectory` holds of its name, collect a file (with its
content) when `isCodeFile` holds of its name.  Paths are segment lists
relative to the root.  (The source additionally skips files whose read
throws, e.g. binary files; the model reads every collected file.) -/
def findCodeChildren : List (String × FSTree) → List (List String × String)
  | [] => []
  | (n, FSTree.file c) :: rest =>
    (if isCodeFile n then [([n], c)] else []) ++ findCodeChildren rest
  | (n, FSTree.dir cs) :: rest =>
    (if shouldSkipDirectory n then []
     else (findCodeChildren cs).map (fun pc => (n :: pc.1, pc.2)))
      ++ findCodeChildren rest

/-- Spec-side description of the claim's allow/deny rule: `(segs, c)` is
a collected code file iff the final name's lowercased extension is on
the allow-list and no directory on the way starts with `.` or is on the
deny-list. -/
inductive CodeVis : List (String × FSTree) → List String → String → Prop
  | here {cs : List (String × FSTree)} {n : String} {c : String}
      (h : (n, FSTree.file c) ∈ cs)
      (hext : toLowerStr (extname n) ∈
        [".js", ".ts", ".jsx", ".tsx", ".mjs", ".cjs", ".json"]) :
      CodeVis cs [n] c
  | deeper {cs : List (String × FSTree)} {n : String} {cs' : List (String × FSTree)}
      {p : List String} {c : String} (h : (n, FSTree.dir cs') ∈ cs)
      (hdot : strStartsDot n = false)
      (hskip : n ∉ [".git", ".svn", ".hg", "node_modules", ".DS_Store", "__pycache__"])
      (hp : CodeVis cs' p c) : CodeVis cs (n :: p) c

/-! ## Constants (src/server.ts lines 105-106) -/

/-- Model of `CACHE_DURATION = 24 * 60 * 60 * 1000` milliseconds. -/
def CACHE_DURATION : Nat := 24 * 60 * 60 * 1000

/-- Model of `MAX_CODE_FILES = 20`. -/
def MAX_CODE_FILES : Nat := 20

/-! ## Package metadata and the code bundle (`getAllCodeFiles`) -/

/-- The registry metadata fields `getAllCodeFiles` reads. -/
structure PackageInfo where
  name : String
  version : String
  description : Option String
deriving DecidableEq, Repr

/-- A discovered code file, as consumed by `getAllCodeFiles`: its path
relative to the extraction root (the source stores the absolute path
and relativizes it when printing) and its content. -/
structure CodeFile where
  path : String
  content : String
deriving DecidableEq, Repr

/-- One file section of the bundle text:
`=== <relativePath> ===\n<content>\n\n`. -/
def fileSection (f : CodeFile) : String :=
  "=== " ++ f.path ++ " ===\n" ++ f.content ++ "\n\n"

/-- The bundle header (src/server.ts lines 559-561). -/
def bundleHeader (info : PackageInfo) (found : Nat) : String :=
  "Package: " ++ info.name ++ "@" ++ info.version ++ "\n"
    ++ "Description: " ++ (info.description.getD "No description") ++ "\n"
    ++ "Code files found: " ++ toString found ++ "\n\n"

/-- The trailing notice appended when more than `MAX_CODE_FILES` files
were found (src/server.ts lines 571-574). -/
def remainderNotice (total : Nat) : String :=
  "... and " ++ toString (total - MAX_CODE_FILES) ++ " more files\n"
    ++ "Use 'list_package_files' tool to see all files, then fetch specific files as needed.\n"

/-- Model of `getAllCodeFiles` (src/server.ts lines 556-577): header, then the
sections of the first `MAX_CODE_FILES` discovered files accumulated by
the loop, then the notice when the discovered list is longer. -/
def getAllCodeFiles (info : PackageInfo) (codeFiles : List CodeFile) : ToolResult :=
  let filesToShow := codeFiles.take MAX_CODE_FILES
  let allContent :=
    filesToShow.foldl (fun acc f => acc ++ fileSection f)
      (bundleHeader info codeFiles.length)
  if codeFiles.length > MAX_CODE_FILES then
    ⟨allContent ++ remainderNotice codeFiles.length⟩
  else
    ⟨allContent⟩

/-- Concatenate a list of strings (used to state the bundle's shape). -/
def strConcat : List String → String
  | [] => ""
  | s :: rest => s ++ strConcat rest

/-! ## `listPackageFiles` response text (src/server.ts lines 469-474) -/

/-- Model of `fileList.join('\n')`. -/
def joinNL : List String → String
  | [] => ""
  | [s] => s
  | s :: rest => s ++ "\n" ++ joinNL rest

/-- The text of a `list_package_files` response for an extracted tree. -/
def listPackageFilesText (packageName version : String)
    (cs : List (String × FSTree)) : String :=
  "Package: " ++ packageName ++ "@" ++ version
    ++ "\nTotal files: " ++ toString (filesListing cs).length
    ++ "\n\nFiles:\n" ++ joinNL (filesListing cs)

/-! ## The popular-packages resource cache (src/server.ts lines 303-380) -/

/-- The mutable cache fields of the server:
`popularPackagesCache` and `popularPackagesCacheTime`. -/
structure CacheState where
  cache : Option String
  time : Nat
deriving DecidableEq, Repr

/-- Environment for one `getPopularPackages` call: the ISO timestamp
rendered into a fresh summary and the outcome of the search-and-format
stage.  The body built from the five popularity searches is treated as
an oracle (`searchBody`); an `Except.error` stands for an exception
escaping the `try` block. -/
structure PopEnv where
  nowIso : String
  searchBody : Except String String

/-- The fixed header every freshly built summary starts with
(src/server.ts lines 340-341). -/
def popularHeader (iso : String) : String :=
  "# 🔥 Most Popular NPM Packages\n\n" ++ "Updated: " ++ iso ++ "\n\n"

/-- The cache-miss path of `getPopularPackages`: rebuild the summary,
store it, and stamp it with the current time. -/
def refetchPopular (now : Nat) (env : PopEnv) :
    Except McpError (String × CacheState × Bool) :=
  match env.searchBody with
  | .ok body =>
    let text := popularHeader env.nowIso ++ body
    .ok (text, ⟨some text, now⟩, true)
  | .error m => .error ⟨.internalError, "Failed to fetch popular packages: " ++ m⟩

/-- Model of `getPopularPackages`: serve the cached text when it is set (a
nonempty string — JavaScript truthiness) and younger than
`CACHE_DURATION`; otherwise rebuild, store, and restamp.  Returns the
served text, the updated cache state, and whether the upstream registry
was contacted. -/
def getPopularPackages (st : CacheState) (now : Nat) (env : PopEnv) :
    Except McpError (String × CacheState × Bool) :=
  match st.cache with
  | some c =>
    if c ≠ "" ∧ now - st.time < CACHE_DURATION then .ok (c, st, false)
    else refetchPopular now env
  | none => refetchPopular now env

/-! ## `searchNpmPackages` (src/server.ts lines 249-301) -/

/-- JavaScript `String.prototype.trim` (restricted to ASCII whitespace). -/
def jsTrim (s : String) : String :=
  let ws := fun c => c = ' ' ∨ c = '\t' ∨ c = '\n' ∨ c = '\r'
  String.mk (((s.data.dropWhile ws).reverse.dropWhile ws).reverse)

/-- One request to the registry's search endpoint, as issued by
`performPackageSearch` (src/server.ts lines 382-385). -/
structure SearchCall where
  query : String
  size : Int
  fromIdx : Int
deriving DecidableEq, Repr

/-- Model of `searchNpmPackages`: reject a missing/blank query or a size above
250 with `InvalidParams`; otherwise issue exactly one search request
with the trimmed query and the defaulted size (20) and offset (0),
wrapping an upstream failure as `InternalError`.  Returns the outcome
(result text elided — the claim concerns error classification and the
upstream call) together with the list of issued search requests. -/
def searchNpmPackages (query : Option String) (size fromIdx : Option Int)
    (upstream : Except String Unit) : Except McpError Unit × List SearchCall :=
  match query with
  | none =>
    (.error ⟨.invalidParams, "query is required and must be a non-empty string"⟩, [])
  | some q =>
    if jsTrim q = "" then
      (.error ⟨.invalidParams, "query is required and must be a non-empty string"⟩, [])
    else
      let sz := size.getD 20
      let fr := fromIdx.getD 0
      if sz > 250 then
        (.error ⟨.invalidParams, "size cannot exceed 250"⟩, [])
      else
        match upstream with
        | .ok _ => (.ok (), [⟨jsTrim q, sz, fr⟩])
        | .error m =>
          (.error ⟨.internalError, "Failed to search packages: " ++ m⟩, [⟨jsTrim q, sz, fr⟩])

/-! ## The HTTP listener (src/server.ts lines 133-148 and 808-852) -/

/-- An incoming HTTP request as the handler inspects it. -/
structure HttpReq where
  method : String
  url : String
  auth : Option String
deriving DecidableEq, Repr

/-- Where a request ends up.  `health` and `mcp` are the two route
handlers; `preflight`, `unauthorized` and `notFound` are short-circuit
responses (status 200, 401 and 404 respectively) that reach no route
handler. -/
inductive HttpOutcome where
  | preflight
  | unauthorized
  | health
  | mcp
  | notFound
deriving DecidableEq, Repr

/-- Token extraction of `isAuthValid`: accept both `Bearer TOKEN` and
bare `TOKEN` (src/server.ts lines 142-145). -/
def stripBearer (h : String) : String :=
  if strStartsWith h "Bearer " then String.mk (h.data.drop 7) else h

/-- Model of `isAuthValid` (src/server.ts lines 133-148). -/
def isAuthValid (authToken : Option String) (authHeader : Option String) : Bool :=
  match authToken with
  | none => true
  | some tok =>
    match authHeader with
    | none => false
    | some h => stripBearer h = tok

/-- The HTTP request handler (src/server.ts lines 808-852): CORS
preflight first, then the bearer-token gate, then the `/health` and
`/mcp` routes, then 404. -/
def handleHttpRequest (authToken : Option String) (req : HttpReq) : HttpOutcome :=
  if req.method = "OPTIONS" then .preflight
  else if authToken.isSome ∧ ¬ isAuthValid authToken req.auth then .unauthorized
  else if req.url = "/health" then .health
  else if strStartsWith req.url "/mcp" then .mcp
  else .notFound

/-! ## `downloadAndExtract`'s extraction directory (src/server.ts lines 619-627) -/

/-- Model of `packageName.replace(/[@\/]/g, '_')`. -/
def sanitizePkgName (packageName : String) : String :=
  String.mk (packageName.data.map (fun c => if c = '@' ∨ c = '/' then '_' else c))

/-- Model of `path.join(this.tempDir, sanitizedName)`. -/
def extractPathFor (tempDir packageName : String) : String :=
  posixJoin tempDir (sanitizePkgName packageName)

/-! ## `getNpmPackageCode` (src/server.ts lines 415-446) -/

/-- Arguments of the `get_npm_package_code` tool. -/
structure GetPackageCodeArgs where
  packageName : String
  version : Option String
  filePath : Option String

/-- Environment for one `getNpmPackageCode` call: the outcome of
`fetchPackageInfo`, the outcome of the download/extract stream, the
filesystem of the extracted archive as seen by `getSpecificFile`, and
the code files `findCodeFiles` discovers in it. -/
structure NetEnv where
  fetchInfo : Except JsErr PackageInfo
  download : Except JsErr Unit
  fsOps : FSOps
  codeFiles : List CodeFile

/-- Model of `getNpmPackageCode`: the missing-argument check and
`validatePackageName` run before the `try` block and surface their
`McpError`s directly; everything inside the `try` — including the
`McpError(InvalidParams)` thrown by `getSpecificFile` for a path
traversal — is caught and re-thrown as `McpError(InternalError,
'Failed to fetch package code: ' + error.message)`. -/
def getNpmPackageCode (env : NetEnv) (tempDir : String) (args : GetPackageCodeArgs) :
    Except JsErr ToolResult :=
  if args.packageName = "" then
    .error (.mcp .invalidParams "packageName is required and must be a string")
  else
    match validatePackageName args.packageName with
    | .error e => .error (.mcp e.code e.message)
    | .ok _ =>
      let body : Except JsErr ToolResult :=
        match env.fetchInfo with
        | .error e => .error e
        | .ok info =>
          match env.download with
          | .error e => .error e
          | .ok _ =>
            let extractedPath := extractPathFor tempDir args.packageName
            match args.filePath with
            | some fp => (getSpecificFile env.fsOps extractedPath fp).1
            | none => .ok (getAllCodeFiles info env.codeFiles)
      match body with
      | .ok r => .ok r
      | .error e =>
        .error (.mcp .internalError ("Failed to fetch package code: " ++ e.message))

/-! ## Concrete instances used by counterexamples and witnesses -/

/-- A filesystem on which every query fails (no path exists). -/
def fsNone : FSOps :=
  ⟨fun _ => false, fun _ => false, fun _ => .error "EACCES"⟩

/-- An extracted archive whose only regular file lives under a hidden
directory. -/
def hiddenTree : List (String × FSTree) :=
  [(".github", FSTree.dir [("workflow.yml", FSTree.file "name: ci")])]

/-- Sample registry metadata. -/
def lodashInfo : PackageInfo :=
  ⟨"lodash", "4.17.21", some "Lodash modular utilities."⟩

/-- A fully successful environment for `getNpmPackageCode` (metadata
fetch and download both succeed). -/
def traversalEnv : NetEnv :=
  ⟨.ok lodashInfo, .ok (), fsNone, []⟩

/-- A sample timestamp for the popular-packages cache witness. -/
def w4iso : String := "2026-01-01T00:00:00.000Z"

/-- A sample environment for the popular-packages cache witness. -/
def w4env : PopEnv := ⟨w4iso, .ok "## 1. react\n"⟩

/-- The summary text `w4env` produces. -/
def w4text : String := popularHeader w4iso ++ "## 1. react\n"

/-- A small well-formed extracted archive used as a witness input. -/
def sampleTree : List (String × FSTree) :=
  [("src", FSTree.dir [("index.js", FSTree.file "module.exports = 1;\n")]),
   ("README.md", FSTree.file "hello")]

/-! # Theorems -/

/-! ## Generic string helpers -/

theorem strAppend_empty (s : String) : s ++ "" = s := by
  apply String.ext
  simp [String.data_append]

theorem strAppend_assoc (a b c : String) : a ++ b ++ c = a ++ (b ++ c) := by
  apply String.ext
  simp [String.data_append]

/-! ## Claim C2: `validatePackageName` -/

/-- C2, counterexample: the name `a..b` matches the scoped/unscoped
allow-list pattern, yet `validatePackageName` rejects it (the `..`
check runs after the pattern check and rejects some pattern-matching
names), so the claim's acceptance half is false as stated. -/
theorem validatePackageName_pattern_not_sufficient :
    npmNamePattern "a..b" = true ∧
      validatePackageName "a..b" =
        .error ⟨.invalidParams, "Invalid package name: contains prohibited characters"⟩ :=
  ⟨rfl, rfl⟩

/-- C2 (amended): `validatePackageName` accepts exactly the names that
match the allow-list pattern AND contain no `..` substring (names with
a null byte or newline never match the pattern, and the `..`/null/
newline check additionally rejects the pattern-matching names that
contain `..`); every rejection is an invalid-params error. -/
theorem validatePackageName_error_code (s : String) (e : McpError) :
    validatePackageName s = .error e → e.code = .invalidParams := by
  intro h
  unfold validatePackageName at h
  split at h
  · simp only [Except.error.injEq] at h
    subst h
    rfl
  · split at h
    · simp only [Except.error.injEq] at h
      subst h
      rfl
    · simp at h

theorem validatePackageName_characterization (s : String) :
    (validatePackageName s = .ok () ↔
      (npmNamePattern s = true ∧ hasDotDot s.data = false ∧
        strContainsChar s (Char.ofNat 0) = false ∧ strContainsChar s '\n' = false))
    ∧ ∀ e : McpError, validatePackageName s = .error e → e.code = .invalidParams := by
  refine ⟨?_, fun e he => validatePackageName_error_code s e he⟩
  cases hpat : npmNamePattern s with
  | false => simp [validatePackageName, hpat]
  | true =>
    cases hdd : hasDotDot s.data with
    | true => simp [validatePackageName, hpat, hdd]
    | false =>
      cases h0 : strContainsChar s (Char.ofNat 0) with
      | true => simp [validatePackageName, hpat, hdd, h0]
      | false =>
        cases hnl : strContainsChar s '\n' with
        | true => simp [validatePackageName, hpat, hdd, h0, hnl]
        | false => simp [validatePackageName, hpat, hdd, h0, hnl]

/-- Witness for `validatePackageName_characterization` at the concrete
names `lodash` (accepted) and `a..b` (rejected with `InvalidParams`). -/
theorem validatePackageName_characterization_witness :
    validatePackageName "lodash" = .ok () ∧
      ∀ e : McpError, validatePackageName "a..b" = .error e → e.code = .invalidParams :=
  ⟨(validatePackageName_characterization "lodash").1.mpr (by decide),
    (validatePackageName_characterization "a..b").2⟩

/-! ## Claim C9: `searchNpmPackages` -/

/-- C9: `searchNpmPackages` raises an invalid-params error exactly when
the query is missing, empty or whitespace-only, or when the requested
size exceeds 250; otherwise it issues exactly one registry search with
the trimmed query, the size defaulted to 20 and the offset defaulted
to 0. -/
theorem searchNpmPackages_validation (query : Option String) (size fromIdx : Option Int)
    (upstream : Except String Unit) :
    ((∃ m, (searchNpmPackages query size fromIdx upstream).1 = .error ⟨.invalidParams, m⟩)
      ↔ (query = none ∨ (∃ q, query = some q ∧ jsTrim q = "") ∨ size.getD 20 > 250))
    ∧ ∀ q, query = some q → jsTrim q ≠ "" → ¬ size.getD 20 > 250 →
        (searchNpmPackages query size fromIdx upstream).2
          = [⟨jsTrim q, size.getD 20, fromIdx.getD 0⟩] := by
  cases query with
  | none => simp [searchNpmPackages]
  | some q =>
    by_cases ht : jsTrim q = ""
    · constructor
      · simp [searchNpmPackages, ht]
      · intro q' hq' htr
        rw [Option.some.injEq] at hq'
        exact absurd (hq' ▸ ht) htr
    · by_cases hs : size.getD 20 > 250
      · simp [searchNpmPackages, ht, hs]
      · cases upstream <;> simp [searchNpmPackages, ht, hs]

/-- Witness for `searchNpmPackages_validation`: a valid defaulted call
issues exactly one search request. -/
theorem searchNpmPackages_validation_witness :
    (searchNpmPackages (some "react") none none (.ok ())).2 = [⟨"react", 20, 0⟩] :=
  (searchNpmPackages_validation (some "react") none none (.ok ())).2 "react" rfl
    (by decide) (by decide)

/-! ## Claim C7: the HTTP bearer-token gate -/

/-- C7, counterexample: with `AUTH_TOKEN` configured, an `OPTIONS`
request to the protocol endpoint that carries no Authorization header
is answered with the CORS preflight response (status 200), not 401 —
the preflight branch runs before the auth check, so the gate is not
applied to every method. -/
theorem auth_gate_skips_preflight :
    handleHttpRequest (some "secret-token") ⟨"OPTIONS", "/mcp", none⟩ = .preflight
      ∧ HttpOutcome.preflight ≠ HttpOutcome.unauthorized :=
  ⟨rfl, by decide⟩

/-- C7 (amended): with `AUTH_TOKEN` set, every HTTP request whose
method is not `OPTIONS` (any URL, including `/health` and `/mcp`) that
does not carry the configured token receives the 401 response and
reaches no route handler; `OPTIONS` requests are short-circuited by the
CORS preflight response instead. -/
theorem auth_gate_non_options (tok : String) (req : HttpReq)
    (hm : req.method ≠ "OPTIONS")
    (ha : req.auth.map stripBearer ≠ some tok) :
    handleHttpRequest (some tok) req = .unauthorized := by
  have hv : isAuthValid (some tok) req.auth = false := by
    cases hau : req.auth with
    | none => rfl
    | some h =>
      rw [hau] at ha
      simp only [Option.map_some', ne_eq, Option.some.injEq] at ha
      simp only [isAuthValid]
      exact decide_eq_false ha
  unfold handleHttpRequest
  rw [if_neg hm]
  simp [hv]

/-- Witness for `auth_gate_non_options`: a `GET /health` request with a
wrong token is rejected with 401. -/
theorem auth_gate_non_options_witness :
    ("GET" : String) ≠ "OPTIONS"
      ∧ (some "wrong").map stripBearer ≠ some "secret"
      ∧ handleHttpRequest (some "secret") ⟨"GET", "/health", some "wrong"⟩ = .unauthorized :=
  ⟨by decide, by decide,
    auth_gate_non_options "secret" ⟨"GET", "/health", some "wrong"⟩ (by decide) (by decide)⟩

/-! ## Claim C5: the code-file bundle cap and remainder notice -/

theorem foldl_sections (l : List CodeFile) (init : String) :
    l.foldl (fun acc f => acc ++ fileSection f) init
      = init ++ strConcat (l.map fileSection) := by
  induction l generalizing init with
  | nil => simp [strConcat, strAppend_empty]
  | cons f rest ih =>
    simp only [List.foldl_cons, List.map_cons, strConcat, ih, strAppend_assoc]

/-- C5: the bundle text of `get_npm_package_code` without a `filePath`
is the header followed by the sections of at most `MAX_CODE_FILES`
(20) discovered files, followed — exactly when more than 20 files were
discovered — by the remainder notice naming the count of files beyond
the first 20 (and by nothing otherwise). -/
theorem getAllCodeFiles_bundle_shape (info : PackageInfo) (files : List CodeFile) :
    (getAllCodeFiles info files).text
      = bundleHeader info files.length
        ++ strConcat ((files.take MAX_CODE_FILES).map fileSection)
        ++ (if files.length > MAX_CODE_FILES then remainderNotice files.length else "")
    ∧ (files.take MAX_CODE_FILES).length ≤ MAX_CODE_FILES := by
  constructor
  · unfold getAllCodeFiles
    by_cases h : files.length > MAX_CODE_FILES
    · rw [if_pos h, if_pos h]
      simp only [foldl_sections]
    · rw [if_neg h, if_neg h]
      simp only [foldl_sections, strAppend_empty]
  · rw [List.length_take]
    exact min_le_left _ _

/-! ## Claim C4: the popular-packages cache -/

theorem popularText_ne_empty (iso b : String) : popularHeader iso ++ b ≠ "" := by
  intro h
  have h2 := congrArg String.data h
  have h0 : ("" : String).data = ([] : List Char) := rfl
  rw [h0, String.data_append] at h2
  unfold popularHeader at h2
  rw [String.data_append, String.data_append, String.data_append] at h2
  simp only [List.append_assoc, List.append_eq_nil] at h2
  exact absurd h2.1 (by decide)

theorem refetchPopular_ok (now : Nat) (env : PopEnv) (text : String)
    (st1 : CacheState) (fetched : Bool)
    (h : refetchPopular now env = .ok (text, st1, fetched)) :
    ∃ body, env.searchBody = .ok body
      ∧ text = popularHeader env.nowIso ++ body ∧ st1 = ⟨some text, now⟩ := by
  unfold refetchPopular at h
  cases hsb : env.searchBody with
  | ok body =>
    rw [hsb] at h
    simp only [Except.ok.injEq, Prod.mk.injEq] at h
    obtain ⟨h1, h2, -⟩ := h
    exact ⟨body, rfl, h1.symm, by rw [← h2, ← h1]⟩
  | error m =>
    rw [hsb] at h
    cases h

/-- C4: if a read at time `t` completed a successful fetch and stored
the summary, then every read at a time `t2` less than `CACHE_DURATION`
(24 hours) later returns the stored summary without contacting the
upstream registry, and leaves the stored summary and its timestamp
unchanged. -/
theorem popularPackages_cache_no_refetch (st0 st1 : CacheState) (env env2 : PopEnv)
    (t t2 : Nat) (text : String)
    (hstore : getPopularPackages st0 t env = .ok (text, st1, true))
    (hord : t ≤ t2) (hfresh : t2 - t < CACHE_DURATION) :
    getPopularPackages st1 t2 env2 = .ok (text, st1, false) := by
  have hkey : ∃ body, env.searchBody = .ok body
      ∧ text = popularHeader env.nowIso ++ body ∧ st1 = ⟨some text, t⟩ := by
    obtain ⟨c0, t0⟩ := st0
    cases c0 with
    | none => exact refetchPopular_ok t env text st1 true hstore
    | some c =>
      rw [show getPopularPackages ⟨some c, t0⟩ t env
          = (if c ≠ "" ∧ t - t0 < CACHE_DURATION
             then .ok (c, ⟨some c, t0⟩, false) else refetchPopular t env) from rfl] at hstore
      by_cases hif : c ≠ "" ∧ t - t0 < CACHE_DURATION
      · rw [if_pos hif] at hstore
        simp only [Except.ok.injEq, Prod.mk.injEq] at hstore
        exact absurd hstore.2.2 (by decide)
      · rw [if_neg hif] at hstore
        exact refetchPopular_ok t env text st1 true hstore
  obtain ⟨body, -, htext, hst1⟩ := hkey
  have hne : text ≠ "" := htext ▸ popularText_ne_empty env.nowIso body
  rw [hst1]
  unfold getPopularPackages
  simp only
  rw [if_pos ⟨hne, hfresh⟩]

/-- Witness for `popularPackages_cache_no_refetch`: a summary stored at
time 0 is served unchanged, without refetching, at time 5. -/
theorem popularPackages_cache_no_refetch_witness :
    getPopularPackages ⟨none, 0⟩ 0 w4env = .ok (w4text, ⟨some w4text, 0⟩, true)
      ∧ (0 : Nat) ≤ 5 ∧ 5 - 0 < CACHE_DURATION
      ∧ getPopularPackages ⟨some w4text, 0⟩ 5 w4env
          = .ok (w4text, ⟨some w4text, 0⟩, false) :=
  ⟨rfl, by decide, by decide,
    popularPackages_cache_no_refetch ⟨none, 0⟩ ⟨some w4text, 0⟩ w4env w4env 0 5 w4text
      rfl (by decide) (by decide)⟩

/-! ## Claim C1, counterexample -/

/-- C1, counterexample: for the extraction root `/srv/temp/lodash` and
the requested path `../secret` — whose normalization resolves outside
the root — `getSpecificFile` does not raise an invalid-path error:
`validateAndResolvePath` silently strips the leading `../`, and the
call goes on to probe the filesystem (here: an existence check on
`/srv/temp/lodash/secret`, reported as not found). -/
theorem validatePath_strips_leading_dotdot :
    withinRoot "/srv/temp/lodash"
        (posixResolve (posixJoin "/srv/temp/lodash" (posixNormalize "../secret"))) = false
      ∧ (getSpecificFile fsNone "/srv/temp/lodash" "../secret").2
          = ["/srv/temp/lodash/secret"]
      ∧ (getSpecificFile fsNone "/srv/temp/lodash" "../secret").1
          = .error (.plain "File not found: ../secret") :=
  ⟨by decide, rfl, rfl⟩

/-! ## Claim C3: a traversal attempt is re-tagged as an internal error -/

/-- C3: evaluating `get_npm_package_code` at `packageName = "lodash"`,
`filePath = ".."` with metadata fetch and download succeeding: the
`McpError(InvalidParams)` thrown for the path traversal inside the
`try` block is caught by the blanket handler and surfaced as
`McpError(InternalError)`, contradicting the claim that a path
traversal attempt carries the invalid-input tag. -/
theorem traversal_error_retagged_internal :
    getNpmPackageCode traversalEnv "/srv/app/temp" ⟨"lodash", none, some ".."⟩
      = .error (.mcp .internalError
          ("Failed to fetch package code: MCP error -32602: Invalid file path: "
            ++ "MCP error -32602: Access denied: Path traversal attempt detected")) :=
  rfl

/-! ## Claim C6, counterexample -/

/-- C6, counterexample: the tree `hiddenTree` contains the regular file
`.github/workflow.yml`, but the `list_package_files` walk skips
directories whose name starts with a dot, so the listing is empty — the
listing is not the full relative file listing. -/
theorem fullListing_misses_hidden_dirs :
    AnyFileIn hiddenTree [".github", "workflow.yml"] ∧ filesListing hiddenTree = [] :=
  ⟨@AnyFileIn.deeper hiddenTree ".github"
      [("workflow.yml", FSTree.file "name: ci")] ["workflow.yml"]
      (List.Mem.head _)
      (@AnyFileIn.here [("workflow.yml", FSTree.file "name: ci")]
        "workflow.yml" "name: ci" (List.Mem.head _)),
    by simp [filesListing, hiddenTree, walkChildren, strStartsDot]⟩

/-! ## Claim C6: the file-listing walk -/

theorem VisIn_cons (e : String × FSTree) (cs : List (String × FSTree)) (p : List String)
    (h : VisIn cs p) : VisIn (e :: cs) p := by
  cases h with
  | here hm => exact VisIn.here (List.mem_cons_of_mem _ hm)
  | deeper hm hdot hp => exact VisIn.deeper (List.mem_cons_of_mem _ hm) hdot hp

theorem walkChildren_vis (cs : List (String × FSTree)) :
    ∀ p, p ∈ walkChildren cs → VisIn cs p := by
  induction cs using walkChildren.induct with
  | case1 => intro p hp; simp [walkChildren] at hp
  | case2 n c rest ih =>
    intro p hp
    simp only [walkChildren, List.mem_cons] at hp
    rcases hp with h1 | h2
    · subst h1
      exact VisIn.here (List.Mem.head _)
    · exact VisIn_cons _ _ _ (ih p h2)
  | case3 n cs' rest ih1 ih2 =>
    intro p hp
    simp only [walkChildren, List.mem_append] at hp
    rcases hp with h1 | h2
    · by_cases hd : strStartsDot n = true
      · rw [if_pos hd] at h1
        simp at h1
      · rw [if_neg hd] at h1
        rcases List.mem_map.mp h1 with ⟨p', hp', rfl⟩
        exact VisIn.deeper (List.Mem.head _) (Bool.not_eq_true _ ▸ hd) (ih1 p' hp')
    · exact VisIn_cons _ _ _ (ih2 p h2)

theorem walk_file_mem {n : String} {c : String} {cs : List (String × FSTree)}
    (hm : (n, FSTree.file c) ∈ cs) : [n] ∈ walkChildren cs := by
  induction cs with
  | nil => cases hm
  | cons e rest ih =>
    rcases List.mem_cons.mp hm with he | hm'
    · rw [← he]
      simp only [walkChildren]
      exact List.Mem.head _
    · obtain ⟨m, t⟩ := e
      cases t with
      | file c' =>
        simp only [walkChildren, List.mem_cons]
        exact Or.inr (ih hm')
      | dir cs'' =>
        simp only [walkChildren, List.mem_append]
        exact Or.inr (ih hm')

theorem walk_dir_mem {n : String} {cs' cs : List (String × FSTree)} {p' : List String}
    (hm : (n, FSTree.dir cs') ∈ cs) (hdot : strStartsDot n = false)
    (hp : p' ∈ walkChildren cs') : (n :: p') ∈ walkChildren cs := by
  induction cs with
  | nil => cases hm
  | cons e rest ih =>
    rcases List.mem_cons.mp hm with he | hm'
    · rw [← he]
      simp only [walkChildren, List.mem_append]
      refine Or.inl ?_
      rw [if_neg (by rw [hdot]; exact fun hc => Bool.false_ne_true hc)]
      exact List.mem_map_of_mem _ hp
    · obtain ⟨m, t⟩ := e
      cases t with
      | file c' =>
        simp only [walkChildren, List.mem_cons]
        exact Or.inr (ih hm')
      | dir cs'' =>
        simp only [walkChildren, List.mem_append]
        exact Or.inr (ih hm')

theorem vis_walkChildren (cs : List (String × FSTree)) (p : List String)
    (h : VisIn cs p) : p ∈ walkChildren cs := by
  induction h with
  | here hm => exact walk_file_mem hm
  | deeper hm hdot hp ih => exact walk_dir_mem hm hdot ih

/-- Membership characterization of the raw walk. -/
theorem walkChildren_mem (cs : List (String × FSTree)) (p : List String) :
    p ∈ walkChildren cs ↔ VisIn cs p :=
  ⟨walkChildren_vis cs p, vis_walkChildren cs p⟩

/-- Every walked path starts with the name of a top-level entry. -/
theorem walkChildren_head (cs : List (String × FSTree)) :
    ∀ p ∈ walkChildren cs, ∃ n p', p = n :: p' ∧ n ∈ cs.map Prod.fst := by
  induction cs using walkChildren.induct with
  | case1 => intro p hp; simp [walkChildren] at hp
  | case2 n c rest ih =>
    intro p hp
    simp only [walkChildren, List.mem_cons] at hp
    rcases hp with h1 | h2
    · exact ⟨n, [], h1, by simp⟩
    · rcases ih p h2 with ⟨m, p', rfl, hmem⟩
      exact ⟨m, p', rfl, by simp [hmem]⟩
  | case3 n cs' rest ih1 ih2 =>
    intro p hp
    simp only [walkChildren, List.mem_append] at hp
    rcases hp with h1 | h2
    · by_cases hd : strStartsDot n = true
      · rw [if_pos hd] at h1
        simp at h1
      · rw [if_neg hd] at h1
        rcases List.mem_map.mp h1 with ⟨p', _, rfl⟩
        exact ⟨n, p', rfl, by simp⟩
    · rcases ih2 p h2 with ⟨m, p', rfl, hmem⟩
      exact ⟨m, p', rfl, by simp [hmem]⟩

/-- Decomposition of `wfEntries` at a cons cell. -/
theorem wfEntries_cons {e : String × FSTree} {rest : List (String × FSTree)}
    (h : wfEntries (e :: rest) = true) :
    e.1 ≠ "" ∧ ¬ e.1.data.contains '/' ∧ (∀ f ∈ rest, f.1 ≠ e.1)
      ∧ wfEntries rest = true
      ∧ (∀ cs', e.2 = FSTree.dir cs' → wfEntries cs' = true) := by
  obtain ⟨n, t⟩ := e
  cases t with
  | file c =>
    simp only [wfEntries, Bool.and_eq_true, decide_eq_true_eq, List.all_eq_true] at h
    exact ⟨h.1.1.1, h.1.1.2, fun f hf => h.1.2 f hf, h.2, fun cs' hcs' => by cases hcs'⟩
  | dir cs0 =>
    simp only [wfEntries, Bool.and_eq_true, decide_eq_true_eq, List.all_eq_true] at h
    refine ⟨h.1.1.1.1, h.1.1.1.2, fun f hf => h.1.1.2 f hf, h.2, ?_⟩
    intro cs' hcs'
    cases hcs'
    exact h.1.2

/-- Under well-formedness the raw walk has no duplicate paths. -/
theorem walkChildren_nodup (cs : List (String × FSTree)) :
    wfEntries cs = true → (walkChildren cs).Nodup := by
  induction cs using walkChildren.induct with
  | case1 => intro _; simp [walkChildren]
  | case2 n c rest ih =>
    intro hwf
    obtain ⟨-, -, hdist, hrest, -⟩ := wfEntries_cons hwf
    simp only [walkChildren]
    refine List.Nodup.cons ?_ (ih hrest)
    intro hmem
    rcases walkChildren_head rest _ hmem with ⟨m, p', heq, hmm⟩
    rcases List.mem_map.mp hmm with ⟨f, hf, rfl⟩
    exact hdist f hf (List.cons.inj heq).1.symm
  | case3 n cs' rest ih1 ih2 =>
    intro hwf
    obtain ⟨-, -, hdist, hrest, hsub⟩ := wfEntries_cons hwf
    simp only [walkChildren]
    by_cases hd : strStartsDot n = true
    · rw [if_pos hd]
      simpa using ih2 hrest
    · rw [if_neg hd]
      refine List.Nodup.append ?_ (ih2 hrest) ?_
      · exact List.Nodup.map (fun p q hpq => (List.cons.inj hpq).2) (ih1 (hsub cs' rfl))
      · intro q hq1 hq2
        rcases List.mem_map.mp hq1 with ⟨p', -, rfl⟩
        rcases walkChildren_head rest _ hq2 with ⟨m, p'', heq, hmm⟩
        rcases List.mem_map.mp hmm with ⟨f, hf, rfl⟩
        exact hdist f hf ((List.cons.inj heq).1.symm)

/-- Under well-formedness every segment of every walked path is
nonempty and slash-free. -/
theorem walkChildren_seg_wf (cs : List (String × FSTree)) :
    wfEntries cs = true → ∀ p ∈ walkChildren cs, ∀ s ∈ p,
      s ≠ "" ∧ ¬ s.data.contains '/' := by
  induction cs using walkChildren.induct with
  | case1 => intro _ p hp; simp [walkChildren] at hp
  | case2 n c rest ih =>
    intro hwf p hp
    obtain ⟨hne, hsl, -, hrest, -⟩ := wfEntries_cons hwf
    simp only [walkChildren, List.mem_cons] at hp
    rcases hp with h1 | h2
    · subst h1
      intro s hs
      rcases List.mem_singleton.mp hs with rfl
      exact ⟨hne, hsl⟩
    · exact ih hrest p h2
  | case3 n cs' rest ih1 ih2 =>
    intro hwf p hp
    obtain ⟨hne, hsl, -, hrest, hsub⟩ := wfEntries_cons hwf
    simp only [walkChildren, List.mem_append] at hp
    rcases hp with h1 | h2
    · by_cases hd : strStartsDot n = true
      · rw [if_pos hd] at h1
        simp at h1
      · rw [if_neg hd] at h1
        rcases List.mem_map.mp h1 with ⟨p', hp', rfl⟩
        intro s hs
        rcases List.mem_cons.mp hs with rfl | hs'
        · exact ⟨hne, hsl⟩
        · exact ih1 (hsub cs' rfl) p' hp' s hs'
    · exact ih2 hrest p h2

theorem slash_data : ("/" : String).data = ['/'] := rfl

theorem chars_split_at_slash : ∀ (l1 l2 r1 r2 : List Char),
    ¬ l1.contains '/' → ¬ l2.contains '/' →
    l1 ++ '/' :: r1 = l2 ++ '/' :: r2 → l1 = l2 ∧ r1 = r2 := by
  intro l1
  induction l1 with
  | nil =>
    intro l2 r1 r2 _ h2 h
    cases l2 with
    | nil => simpa using h
    | cons c l2' =>
      exfalso
      simp only [List.nil_append, List.cons_append, List.cons.injEq] at h
      apply h2
      rw [← h.1]
      simp [List.contains_cons]
  | cons c l1' ih =>
    intro l2 r1 r2 h1 h2 h
    cases l2 with
    | nil =>
      exfalso
      simp only [List.cons_append, List.nil_append, List.cons.injEq] at h
      apply h1
      rw [h.1]
      simp [List.contains_cons]
    | cons d l2' =>
      simp only [List.cons_append, List.cons.injEq] at h
      have hrec := ih l2' r1 r2
        (fun hc => h1 (List.elem_iff.mpr (List.mem_cons_of_mem _ (List.elem_iff.mp hc))))
        (fun hc => h2 (List.elem_iff.mpr (List.mem_cons_of_mem _ (List.elem_iff.mp hc)))) h.2
      exact ⟨by rw [h.1, hrec.1], hrec.2⟩

theorem joinSegs_ne_empty (y : String) (ys : List String)
    (hy : y ≠ "") : joinSegs (y :: ys) ≠ "" := by
  cases ys with
  | nil => simpa [joinSegs] using hy
  | cons y2 ys' =>
    intro h
    have hd := congrArg String.data h
    rw [show joinSegs (y :: y2 :: ys') = y ++ "/" ++ joinSegs (y2 :: ys') from rfl] at hd
    rw [String.data_append, String.data_append] at hd
    simp only [List.append_assoc, List.append_eq_nil] at hd
    exact absurd hd.2.1 (by decide)

theorem joinSegs_slash_free_inj : ∀ (a b : List String),
    (∀ s ∈ a, s ≠ "" ∧ ¬ s.data.contains '/') →
    (∀ s ∈ b, s ≠ "" ∧ ¬ s.data.contains '/') →
    joinSegs a = joinSegs b → a = b := by
  intro a
  induction a with
  | nil =>
    intro b _ hb h
    cases b with
    | nil => rfl
    | cons y ys =>
      exact absurd h.symm (joinSegs_ne_empty y ys (hb y (List.Mem.head _)).1)
  | cons x xs ih =>
    intro b ha hb h
    cases b with
    | nil =>
      exact absurd h (joinSegs_ne_empty x xs (ha x (List.Mem.head _)).1)
    | cons y ys =>
      cases xs with
      | nil =>
        cases ys with
        | nil =>
          rw [show joinSegs [x] = x from rfl, show joinSegs [y] = y from rfl] at h
          rw [h]
        | cons y2 ys' =>
          exfalso
          rw [show joinSegs [x] = x from rfl,
            show joinSegs (y :: y2 :: ys') = y ++ "/" ++ joinSegs (y2 :: ys') from rfl] at h
          apply (ha x (List.Mem.head _)).2
          rw [h, String.data_append, String.data_append]
          simp [List.elem_iff, slash_data]
      | cons x2 xs' =>
        cases ys with
        | nil =>
          exfalso
          rw [show joinSegs (x :: x2 :: xs') = x ++ "/" ++ joinSegs (x2 :: xs') from rfl,
            show joinSegs [y] = y from rfl] at h
          apply (hb y (List.Mem.head _)).2
          rw [← h, String.data_append, String.data_append]
          simp [List.elem_iff, slash_data]
        | cons y2 ys' =>
          rw [show joinSegs (x :: x2 :: xs') = x ++ "/" ++ joinSegs (x2 :: xs') from rfl,
            show joinSegs (y :: y2 :: ys') = y ++ "/" ++ joinSegs (y2 :: ys') from rfl] at h
          have hd := congrArg String.data h
          rw [String.data_append, String.data_append, String.data_append,
            String.data_append] at hd
          have hd' : x.data ++ '/' :: (joinSegs (x2 :: xs')).data
              = y.data ++ '/' :: (joinSegs (y2 :: ys')).data := by
            simpa [List.append_assoc] using hd
          have hcontx : ¬ x.data.contains '/' := (ha x (List.Mem.head _)).2
          have hconty : ¬ y.data.contains '/' := (hb y (List.Mem.head _)).2
          obtain ⟨h1, h2⟩ := chars_split_at_slash x.data y.data _ _ hcontx hconty hd'
          have hxy : x = y := String.ext h1
          have hJ : joinSegs (x2 :: xs') = joinSegs (y2 :: ys') := String.ext h2
          rw [hxy, ih (y2 :: ys') (fun s hs => ha s (List.mem_cons_of_mem _ hs))
            (fun s hs => hb s (List.mem_cons_of_mem _ hs)) hJ]

/-- C6 (amended): for a well-formed extracted tree, the
`list_package_files` listing contains exactly the `/`-joined relative
paths of the regular files reachable without descending into a hidden
(dot-named) directory, each exactly once; the listing is sorted; and
the response text reports as its total-files count the length of that
same listing. -/
theorem listPackageFiles_listing (cs : List (String × FSTree))
    (hwf : wfEntries cs = true) :
    (∀ q, q ∈ filesListing cs ↔ ∃ segs, VisIn cs segs ∧ q = joinSegs segs)
    ∧ (filesListing cs).Nodup
    ∧ List.Sorted (· ≤ ·) (filesListing cs)
    ∧ ∀ pkg ver, listPackageFilesText pkg ver cs
        = "Package: " ++ pkg ++ "@" ++ ver ++ "\nTotal files: "
          ++ toString (filesListing cs).length ++ "\n\nFiles:\n"
          ++ joinNL (filesListing cs) := by
  refine ⟨?_, ?_, ?_, fun pkg ver => rfl⟩
  · intro q
    rw [filesListing, (List.perm_insertionSort _ _).mem_iff, List.mem_map]
    constructor
    · rintro ⟨p, hp, rfl⟩
      exact ⟨p, walkChildren_vis cs p hp, rfl⟩
    · rintro ⟨segs, hv, rfl⟩
      exact ⟨segs, vis_walkChildren cs segs hv, rfl⟩
  · rw [filesListing]
    refine (List.perm_insertionSort _ _).nodup_iff.mpr ?_
    refine List.Nodup.map_on ?_ (walkChildren_nodup cs hwf)
    intro p hp p' hp' hj
    exact joinSegs_slash_free_inj p p' (walkChildren_seg_wf cs hwf p hp)
      (walkChildren_seg_wf cs hwf p' hp') hj
  · exact List.sorted_insertionSort _ _

/-- Witness for `listPackageFiles_listing` at a concrete two-file tree. -/
theorem listPackageFiles_listing_witness :
    wfEntries sampleTree = true
      ∧ (("src/index.js" ∈ filesListing sampleTree) ↔
          ∃ segs, VisIn sampleTree segs ∧ "src/index.js" = joinSegs segs) :=
  ⟨by simp [sampleTree, wfEntries],
    ((listPackageFiles_listing sampleTree
      (by simp [sampleTree, wfEntries])).1 "src/index.js")⟩

/-! ## Claim C8: the code-file walk filters -/

theorem isCodeFile_iff (n : String) :
    isCodeFile n = true ↔ toLowerStr (extname n) ∈
      [".js", ".ts", ".jsx", ".tsx", ".mjs", ".cjs", ".json"] := by
  rw [isCodeFile]
  exact List.elem_iff

theorem shouldSkip_false_iff (n : String) :
    shouldSkipDirectory n = false ↔ (strStartsDot n = false ∧
      n ∉ [".git", ".svn", ".hg", "node_modules", ".DS_Store", "__pycache__"]) := by
  rw [shouldSkipDirectory, Bool.or_eq_false_iff]
  constructor
  · rintro ⟨h1, h2⟩
    refine ⟨h1, fun hm => ?_⟩
    cases ((List.elem_iff.mpr hm : SKIP_DIRECTORIES.contains n = true).symm.trans h2)
  · rintro ⟨h1, h2⟩
    refine ⟨h1, ?_⟩
    cases hc : SKIP_DIRECTORIES.contains n with
    | false => rfl
    | true => exact absurd (List.elem_iff.mp hc) h2

theorem CodeVis_cons (e : String × FSTree) (cs : List (String × FSTree))
    (p : List String) (c : String) (h : CodeVis cs p c) : CodeVis (e :: cs) p c := by
  cases h with
  | here hm hext => exact CodeVis.here (List.mem_cons_of_mem _ hm) hext
  | deeper hm hdot hskip hp => exact CodeVis.deeper (List.mem_cons_of_mem _ hm) hdot hskip hp

theorem findCode_vis (cs : List (String × FSTree)) :
    ∀ p c, (p, c) ∈ findCodeChildren cs → CodeVis cs p c := by
  induction cs using findCodeChildren.induct with
  | case1 => intro p c hp; simp [findCodeChildren] at hp
  | case2 n c0 rest ih =>
    intro p c hp
    simp only [findCodeChildren, List.mem_append] at hp
    rcases hp with h1 | h2
    · by_cases hcf : isCodeFile n = true
      · rw [if_pos hcf] at h1
        simp only [List.mem_singleton, Prod.mk.injEq] at h1
        obtain ⟨rfl, rfl⟩ := h1
        exact CodeVis.here (List.Mem.head _) ((isCodeFile_iff n).mp hcf)
      · rw [if_neg hcf] at h1
        simp at h1
    · exact CodeVis_cons _ _ _ _ (ih p c h2)
  | case3 n cs' rest ih1 ih2 =>
    intro p c hp
    simp only [findCodeChildren, List.mem_append] at hp
    rcases hp with h1 | h2
    · by_cases hsk : shouldSkipDirectory n = true
      · rw [if_pos hsk] at h1
        simp at h1
      · rw [if_neg hsk] at h1
        rcases List.mem_map.mp h1 with ⟨⟨p', c'⟩, hp', heq⟩
        injection heq with ha hb
        subst ha
        subst hb
        have hs := (shouldSkip_false_iff n).mp (Bool.not_eq_true _ ▸ hsk)
        exact CodeVis.deeper (List.Mem.head _) hs.1 hs.2 (ih1 p' c' hp')
    · exact CodeVis_cons _ _ _ _ (ih2 p c h2)

theorem findCode_file_mem {n c : String} {cs : List (String × FSTree)}
    (hm : (n, FSTree.file c) ∈ cs) (hcf : isCodeFile n = true) :
    ([n], c) ∈ findCodeChildren cs := by
  induction cs with
  | nil => cases hm
  | cons e rest ih =>
    rcases List.mem_cons.mp hm with he | hm'
    · rw [← he]
      simp only [findCodeChildren, List.mem_append]
      refine Or.inl ?_
      rw [if_pos hcf]
      exact List.Mem.head _
    · obtain ⟨m, t⟩ := e
      cases t with
      | file c' =>
        simp only [findCodeChildren, List.mem_append]
        exact Or.inr (ih hm')
      | dir cs'' =>
        simp only [findCodeChildren, List.mem_append]
        exact Or.inr (ih hm')

theorem findCode_dir_mem {n : String} {cs' cs : List (String × FSTree)}
    {p' : List String} {c : String}
    (hm : (n, FSTree.dir cs') ∈ cs) (hsk : shouldSkipDirectory n = false)
    (hp : (p', c) ∈ findCodeChildren cs') : (n :: p', c) ∈ findCodeChildren cs := by
  induction cs with
  | nil => cases hm
  | cons e rest ih =>
    rcases List.mem_cons.mp hm with he | hm'
    · rw [← he]
      simp only [findCodeChildren, List.mem_append]
      refine Or.inl ?_
      rw [if_neg (by rw [hsk]; exact fun hc => Bool.false_ne_true hc)]
      exact List.mem_map_of_mem _ hp
    · obtain ⟨m, t⟩ := e
      cases t with
      | file c' =>
        simp only [findCodeChildren, List.mem_append]
        exact Or.inr (ih hm')
      | dir cs'' =>
        simp only [findCodeChildren, List.mem_append]
        exact Or.inr (ih hm')

theorem vis_findCode (cs : List (String × FSTree)) (p : List String) (c : String)
    (h : CodeVis cs p c) : (p, c) ∈ findCodeChildren cs := by
  induction h with
  | here hm hext => exact findCode_file_mem hm ((isCodeFile_iff _).mpr hext)
  | deeper hm hdot hskip hp ih =>
    exact findCode_dir_mem hm ((shouldSkip_false_iff _).mpr ⟨hdot, hskip⟩) ih

/-- C8: the code-file walk collects a file (with its content) if and
only if the file's lowercased extension is one of `.js`, `.ts`, `.jsx`,
`.tsx`, `.mjs`, `.cjs`, `.json` and no directory on its path from the
extraction root has a name starting with `.` or equal to one of `.git`,
`.svn`, `.hg`, `node_modules`, `.DS_Store`, `__pycache__`. -/
theorem findCodeFiles_filters (cs : List (String × FSTree)) (p : List String)
    (c : String) : (p, c) ∈ findCodeChildren cs ↔ CodeVis cs p c :=
  ⟨findCode_vis cs p c, vis_findCode cs p c⟩

/-! ## Path-model lemmas for claims C1 and C10: splitting and joining -/

theorem ncontains_cons {c d : Char} {l : List Char}
    (h : ¬ (c :: l).contains d = true) : d ≠ c ∧ ¬ l.contains d = true := by
  constructor
  · intro hd
    exact h (List.elem_iff.mpr (by rw [hd]; exact List.Mem.head _))
  · intro hl
    exact h (List.elem_iff.mpr (List.mem_cons_of_mem _ (List.elem_iff.mp hl)))

theorem ncontains_of {l : List Char} {d : Char} (h : ¬ l.contains d = true) : d ∉ l :=
  fun hm => h (List.elem_iff.mpr hm)

theorem ncontains_mk {l : List Char} {d : Char} (h : d ∉ l) : ¬ l.contains d = true :=
  fun hc => h (List.elem_iff.mp hc)

theorem chSplit_ne_nil (l : List Char) : chSplit l ≠ [] := by
  induction l using chSplit.induct with
  | case1 => simp [chSplit]
  | case2 rest ih => simp [chSplit]
  | case3 c rest hc s ss hss ih => simp [chSplit, hss]
  | case4 c rest hc hss ih => simp [chSplit, hss]

theorem chSplit_cons_ne (c : Char) (l : List Char) (hc : ¬ c = '/') :
    chSplit (c :: l) = match chSplit l with
      | s :: ss => (c :: s) :: ss
      | [] => [[c]] := by
  rw [chSplit.eq_def]
  split
  next heq => exact List.noConfusion heq
  next rest heq =>
    injection heq with h1 h2
    exact absurd h1 hc
  next c2 rest heq =>
    injection heq with h1 h2
    subst h1
    subst h2
    rfl

theorem chSplit_slash (l : List Char) : chSplit ('/' :: l) = [] :: chSplit l := rfl

theorem chSplit_noSlash (l : List Char) : ∀ s ∈ chSplit l, ¬ s.contains '/' = true := by
  induction l using chSplit.induct with
  | case1 =>
    intro s hs
    simp only [chSplit, List.mem_singleton] at hs
    subst hs
    simp
  | case2 rest ih =>
    intro s hs
    simp only [chSplit, List.mem_cons] at hs
    rcases hs with rfl | hs
    · simp
    · exact ih s hs
  | case3 c rest hc s0 ss hss ih =>
    intro s hs
    rw [chSplit_cons_ne c rest hc, hss] at hs
    simp only [List.mem_cons] at hs
    rcases hs with rfl | hs
    · intro hcc
      rcases List.mem_cons.mp (List.elem_iff.mp hcc) with h | h
      · exact hc h.symm
      · exact ih s0 (by rw [hss]; exact List.Mem.head _) (List.elem_iff.mpr h)
    · exact ih s (by rw [hss]; exact List.mem_cons_of_mem _ hs)
  | case4 c rest hc hss ih => exact absurd hss (chSplit_ne_nil rest)

theorem chSplit_no_slash_eq (l : List Char) (h : ¬ l.contains '/' = true) :
    chSplit l = [l] := by
  induction l with
  | nil => rfl
  | cons c rest ih =>
    obtain ⟨hc, hr⟩ := ncontains_cons h
    rw [chSplit_cons_ne c rest (fun hh => hc hh.symm), ih hr]

theorem chSplit_append (p r : List Char) (hp : ¬ p.contains '/' = true) :
    chSplit (p ++ '/' :: r) = p :: chSplit r := by
  induction p with
  | nil => rfl
  | cons c p' ih =>
    obtain ⟨hc, hp'⟩ := ncontains_cons hp
    rw [List.cons_append, chSplit_cons_ne c _ (fun hh => hc hh.symm), ih hp']

theorem chSplit_append_slash_end (l : List Char) :
    chSplit (l ++ ['/']) = chSplit l ++ [[]] := by
  induction l with
  | nil => rfl
  | cons c rest ih =>
    by_cases hc : c = '/'
    · subst hc
      rw [List.cons_append, chSplit_slash, chSplit_slash, ih, List.cons_append]
    · obtain ⟨h0, t0, hht⟩ := List.exists_cons_of_ne_nil (chSplit_ne_nil rest)
      rw [List.cons_append, chSplit_cons_ne c _ hc, chSplit_cons_ne c _ hc, ih, hht,
        List.cons_append]
      rfl

theorem chJoin_chSplit (l : List Char) : chJoin (chSplit l) = l := by
  induction l using chSplit.induct with
  | case1 => rfl
  | case2 rest ih =>
    obtain ⟨h0, t0, hht⟩ := List.exists_cons_of_ne_nil (chSplit_ne_nil rest)
    rw [chSplit_slash, hht]
    rw [hht] at ih
    show [] ++ '/' :: chJoin (h0 :: t0) = '/' :: rest
    rw [List.nil_append, ih]
  | case3 c rest hc s0 ss hss ih =>
    rw [chSplit_cons_ne c rest hc, hss]
    rw [hss] at ih
    have hstep : chJoin ((c :: s0) :: ss) = c :: chJoin (s0 :: ss) := by
      cases ss with
      | nil => rfl
      | cons x t => rfl
    rw [hstep, ih]
  | case4 c rest hc hss ih => exact absurd hss (chSplit_ne_nil rest)

theorem chSplit_chJoin (ps : List (List Char)) (hne : ps ≠ [])
    (h : ∀ p ∈ ps, ¬ p.contains '/' = true) : chSplit (chJoin ps) = ps := by
  induction ps with
  | nil => exact absurd rfl hne
  | cons p ps' ih =>
    cases ps' with
    | nil => exact chSplit_no_slash_eq p (h p (List.Mem.head _))
    | cons q ps'' =>
      show chSplit (p ++ '/' :: chJoin (q :: ps'')) = _
      rw [chSplit_append p _ (h p (List.Mem.head _)),
        ih (by simp) (fun x hx => h x (List.mem_cons_of_mem _ hx))]

theorem chSplit_chJoin_append (bs : List (List Char)) (r : List Char) (hne : bs ≠ [])
    (h : ∀ p ∈ bs, ¬ p.contains '/' = true) :
    chSplit (chJoin bs ++ '/' :: r) = bs ++ chSplit r := by
  induction bs with
  | nil => exact absurd rfl hne
  | cons b bs' ih =>
    cases bs' with
    | nil => exact chSplit_append b r (h b (List.Mem.head _))
    | cons b2 bs'' =>
      show chSplit ((b ++ '/' :: chJoin (b2 :: bs'')) ++ '/' :: r) = _
      rw [List.append_assoc, List.cons_append]
      rw [chSplit_append b _ (h b (List.Mem.head _)),
        ih (by simp) (fun x hx => h x (List.mem_cons_of_mem _ hx))]
      rfl

theorem chJoin_ne_nil (ps : List (List Char)) (hne : ps ≠ [])
    (h : ∀ p ∈ ps, p ≠ []) : chJoin ps ≠ [] := by
  cases ps with
  | nil => exact absurd rfl hne
  | cons p ps' =>
    cases ps' with
    | nil => exact h p (List.Mem.head _)
    | cons q ps'' =>
      show p ++ '/' :: chJoin (q :: ps'') ≠ []
      simp

theorem chJoin_append_cons (bs es : List (List Char)) (hbs : bs ≠ []) (hes : es ≠ []) :
    chJoin (bs ++ es) = chJoin bs ++ '/' :: chJoin es := by
  induction bs with
  | nil => exact absurd rfl hbs
  | cons b bs' ih =>
    cases bs' with
    | nil =>
      cases es with
      | nil => exact absurd rfl hes
      | cons e es' => rfl
    | cons b2 bs'' =>
      show chJoin ((b :: b2 :: bs'') ++ es) = (b ++ '/' :: chJoin (b2 :: bs'')) ++ '/' :: chJoin es
      have hstep : chJoin ((b :: b2 :: bs'') ++ es) = b ++ '/' :: chJoin ((b2 :: bs'') ++ es) := by
        rfl
      rw [hstep, ih (by simp), List.append_assoc, List.cons_append]

/-! ## Normalizer accumulator lemmas -/

theorem normAcc_cons (b : Bool) (acc : List (List Char)) (s : List Char)
    (rest : List (List Char)) :
    normAccC b acc (s :: rest) = normAccC b (normStep1 b acc s) rest := by
  simp only [normAccC, normStep1]
  split
  next h => rfl
  next h =>
    split
    next h2 =>
      cases acc with
      | nil => rfl
      | cons a as_ =>
        show (if a = ddC then normAccC b (if b = true then ddC :: a :: as_ else a :: as_) rest
              else normAccC b as_ rest)
            = normAccC b
                (if a = ddC then (if b = true then ddC :: a :: as_ else a :: as_) else as_) rest
        by_cases ha : a = ddC
        · rw [if_pos ha, if_pos ha]
        · rw [if_neg ha, if_neg ha]
    next h2 => rfl

theorem normAcc_append (b : Bool) : ∀ (xs : List (List Char)) (acc ys : List (List Char)),
    normAccC b acc (xs ++ ys) = normAccC b (normAccC b acc xs) ys := by
  intro xs
  induction xs with
  | nil => intro acc ys; rfl
  | cons s xs2 ih =>
    intro acc ys
    rw [List.cons_append, normAcc_cons, normAcc_cons, ih]

theorem normStep1_skip (b : Bool) (acc : List (List Char)) (s : List Char)
    (h : s = [] ∨ s = ['.']) : normStep1 b acc s = acc := by
  simp [normStep1, h]

theorem normStep1_clean (b : Bool) (acc : List (List Char)) (s : List Char)
    (h : cleanSeg s) : normStep1 b acc s = s :: acc := by
  simp [normStep1, h.1, h.2]

theorem keptSegs_cons_skip (s : List Char) (rest : List (List Char))
    (h : s = [] ∨ s = ['.']) : keptSegs (s :: rest) = keptSegs rest := by
  rcases h with h | h <;> subst h <;> simp [keptSegs, List.filter_cons]

theorem keptSegs_cons_keep (s : List Char) (rest : List (List Char))
    (h : ¬ (s = [] ∨ s = ['.'])) : keptSegs (s :: rest) = s :: keptSegs rest := by
  obtain ⟨h1, h2⟩ := not_or.mp h
  simp [keptSegs, List.filter_cons, h1, h2]

theorem normAcc_noDD (b : Bool) : ∀ (segs : List (List Char)) (acc : List (List Char)),
    ddC ∉ segs → normAccC b acc segs = (keptSegs segs).reverse ++ acc := by
  intro segs
  induction segs with
  | nil => intro acc _; simp [normAccC, keptSegs]
  | cons s rest ih =>
    intro acc h
    have hs : s ≠ ddC := fun heq => h (heq ▸ List.Mem.head _)
    have hr : ddC ∉ rest := fun hm => h (List.mem_cons_of_mem _ hm)
    rw [normAcc_cons]
    by_cases hsk : s = [] ∨ s = ['.']
    · rw [normStep1_skip b acc s hsk, ih acc hr, keptSegs_cons_skip s rest hsk]
    · rw [normStep1_clean b acc s ⟨hsk, hs⟩, ih (s :: acc) hr,
        keptSegs_cons_keep s rest hsk, List.reverse_cons, List.append_assoc]
      rfl

theorem normAcc_clean_all (b : Bool) (segs : List (List Char))
    (h : ∀ s ∈ segs, cleanSeg s) (acc : List (List Char)) :
    normAccC b acc segs = segs.reverse ++ acc := by
  rw [normAcc_noDD b segs acc (fun hm => ((h ddC hm).2 rfl))]
  have : keptSegs segs = segs := by
    rw [keptSegs, List.filter_eq_self]
    intro s hs
    exact decide_eq_true (h s hs).1
  rw [this]

theorem normStep1_mem (b : Bool) (acc : List (List Char)) (s : List Char) :
    ∀ x ∈ normStep1 b acc s, x ∈ acc ∨ x = s ∨ x = ddC := by
  intro x hx
  unfold normStep1 at hx
  split at hx
  · exact Or.inl hx
  · split at hx
    · split at hx
      · by_cases hb : b = true
        · rw [if_pos hb] at hx
          exact Or.inr (Or.inr (List.mem_singleton.mp hx))
        · rw [if_neg hb] at hx
          cases hx
      · next a as_ =>
        by_cases ha : a = ddC
        · rw [if_pos ha] at hx
          by_cases hb : b = true
          · rw [if_pos hb] at hx
            rcases List.mem_cons.mp hx with rfl | hx'
            · exact Or.inr (Or.inr rfl)
            · exact Or.inl hx'
          · rw [if_neg hb] at hx
            exact Or.inl hx
        · rw [if_neg ha] at hx
          exact Or.inl (List.mem_cons_of_mem _ hx)
    · rcases List.mem_cons.mp hx with rfl | hx'
      · exact Or.inr (Or.inl rfl)
      · exact Or.inl hx'

theorem normAcc_mem (b : Bool) : ∀ (segs acc : List (List Char)) (x : List Char),
    x ∈ normAccC b acc segs → x ∈ acc ∨ x ∈ segs ∨ x = ddC := by
  intro segs
  induction segs with
  | nil => intro acc x hx; exact Or.inl hx
  | cons s rest ih =>
    intro acc x hx
    rw [normAcc_cons] at hx
    rcases ih _ x hx with h1 | h2 | h3
    · rcases normStep1_mem b acc s x h1 with ha | hb | hc
      · exact Or.inl ha
      · exact Or.inr (Or.inl (hb ▸ List.Mem.head _))
      · exact Or.inr (Or.inr hc)
    · exact Or.inr (Or.inl (List.mem_cons_of_mem _ h2))
    · exact Or.inr (Or.inr h3)

theorem normStep1_no_empty_dot (b : Bool) (acc : List (List Char)) (s : List Char)
    (h1 : [] ∉ acc) (h2 : ['.'] ∉ acc) :
    [] ∉ normStep1 b acc s ∧ ['.'] ∉ normStep1 b acc s := by
  unfold normStep1
  split
  · exact ⟨h1, h2⟩
  · split
    · split
      · by_cases hb : b = true
        · rw [if_pos hb]
          constructor
          · intro hm; cases List.mem_singleton.mp hm
          · intro hm; cases List.mem_singleton.mp hm
        · rw [if_neg hb]
          constructor
          · intro hm; cases hm
          · intro hm; cases hm
      · next a as_ =>
        by_cases ha : a = ddC
        · rw [if_pos ha]
          by_cases hb : b = true
          · rw [if_pos hb]
            constructor
            · intro hm
              rcases List.mem_cons.mp hm with heq | hm'
              · cases heq
              · exact h1 hm'
            · intro hm
              rcases List.mem_cons.mp hm with heq | hm'
              · cases heq
              · exact h2 hm'
          · rw [if_neg hb]
            exact ⟨h1, h2⟩
        · rw [if_neg ha]
          constructor
          · intro hm; exact h1 (List.mem_cons_of_mem _ hm)
          · intro hm; exact h2 (List.mem_cons_of_mem _ hm)
    · next hsk hdd =>
      constructor
      · intro hm
        rcases List.mem_cons.mp hm with heq | hm'
        · exact hsk (Or.inl heq.symm)
        · exact h1 hm'
      · intro hm
        rcases List.mem_cons.mp hm with heq | hm'
        · exact hsk (Or.inr heq.symm)
        · exact h2 hm'

theorem normAcc_no_empty_dot (b : Bool) : ∀ (segs acc : List (List Char)),
    [] ∉ acc → ['.'] ∉ acc →
    [] ∉ normAccC b acc segs ∧ ['.'] ∉ normAccC b acc segs := by
  intro segs
  induction segs with
  | nil => intro acc h1 h2; exact ⟨h1, h2⟩
  | cons s rest ih =>
    intro acc h1 h2
    rw [normAcc_cons]
    obtain ⟨g1, g2⟩ := normStep1_no_empty_dot b acc s h1 h2
    exact ih _ g1 g2

theorem normAcc_ddRun (b : Bool) : ∀ (segs acc front : List (List Char)) (k : Nat),
    acc = front ++ List.replicate k ddC → ddC ∉ front →
    ∃ front' k', normAccC b acc segs = front' ++ List.replicate k' ddC ∧ ddC ∉ front' := by
  intro segs
  induction segs with
  | nil =>
    intro acc front k h1 h2
    exact ⟨front, k, by rw [normAccC, h1], h2⟩
  | cons s rest ih =>
    intro acc front k h1 h2
    rw [normAcc_cons]
    by_cases hsk : s = [] ∨ s = ['.']
    · rw [normStep1_skip b acc s hsk]
      exact ih acc front k h1 h2
    · by_cases hdd : s = ddC
      · subst hdd
        cases front with
        | nil =>
          simp only [List.nil_append] at h1
          cases k with
          | zero =>
            subst h1
            simp only [List.replicate_zero]
            have hstep : normStep1 b ([] : List (List Char)) ddC
                = (if b then [ddC] else []) := by
              simp [normStep1, hsk, ddC]
            rw [hstep]
            by_cases hb : b = true
            · rw [if_pos hb]
              exact ih [ddC] [] 1 rfl (by simp)
            · rw [if_neg hb]
              exact ih [] [] 0 rfl (by simp)
          | succ k' =>
            subst h1
            have hstep : normStep1 b (List.replicate (k' + 1) ddC) ddC
                = (if b then ddC :: List.replicate (k' + 1) ddC
                   else List.replicate (k' + 1) ddC) := by
              rw [List.replicate_succ]
              simp [normStep1, hsk]
            rw [hstep]
            by_cases hb : b = true
            · rw [if_pos hb]
              exact ih _ [] (k' + 2) (by simp [List.replicate_succ]) (by simp)
            · rw [if_neg hb]
              exact ih _ [] (k' + 1) rfl (by simp)
        | cons f fs =>
          have hf : f ≠ ddC := fun heq => h2 (heq ▸ List.Mem.head _)
          have hfs : ddC ∉ fs := fun hm => h2 (List.mem_cons_of_mem _ hm)
          rw [List.cons_append] at h1
          subst h1
          have hstep : normStep1 b (f :: (fs ++ List.replicate k ddC)) ddC
              = fs ++ List.replicate k ddC := by
            simp [normStep1, hsk, hf]
          rw [hstep]
          exact ih _ fs k rfl hfs
      · rw [normStep1_clean b acc s ⟨hsk, hdd⟩]
        refine ih (s :: acc) (s :: front) k (by rw [h1, List.cons_append]) ?_
        intro hm
        rcases List.mem_cons.mp hm with heq | hm'
        · exact hdd heq.symm
        · exact h2 hm'

/-- The normalizer's output has all its `..` segments at the front. -/
theorem normParts_ddRun (b : Bool) (segs : List (List Char)) :
    DDRun (normPartsC b segs) := by
  obtain ⟨front, k, h1, h2⟩ := normAcc_ddRun b segs [] [] 0 rfl (by simp)
  refine ⟨k, front.reverse, ?_, by simpa using h2⟩
  rw [normPartsC, h1, List.reverse_append, List.reverse_replicate]

/-- With `allowAboveRoot = false` the normalizer never outputs `..`. -/
theorem normAcc_false_noDD : ∀ (segs acc : List (List Char)),
    ddC ∉ acc → ddC ∉ normAccC false acc segs := by
  intro segs
  induction segs with
  | nil => intro acc h; exact h
  | cons s rest ih =>
    intro acc h
    rw [normAcc_cons]
    refine ih _ ?_
    intro hm
    rcases normStep1_mem false acc s ddC hm with h1 | h2 | h3
    · exact h h1
    · -- s = ddC appeared in the output of normStep1: impossible when b = false
      unfold normStep1 at hm
      split at hm
      · exact h hm
      · split at hm
        · split at hm
          · rw [if_neg (by exact Bool.false_ne_true)] at hm
            cases hm
          · next a as_ =>
            by_cases ha : a = ddC
            · rw [if_pos ha, if_neg (by exact Bool.false_ne_true)] at hm
              exact h hm
            · rw [if_neg ha] at hm
              exact h (List.mem_cons_of_mem _ hm)
        · next hsk hdd =>
          rcases List.mem_cons.mp hm with heq | hm'
          · exact hdd (h2 ▸ heq)
          · exact h hm'
    · -- x = ddC directly: same split as above
      unfold normStep1 at hm
      split at hm
      · exact h hm
      · split at hm
        · split at hm
          · rw [if_neg (by exact Bool.false_ne_true)] at hm
            cases hm
          · next a as_ =>
            by_cases ha : a = ddC
            · rw [if_pos ha, if_neg (by exact Bool.false_ne_true)] at hm
              exact h hm
            · rw [if_neg ha] at hm
              exact h (List.mem_cons_of_mem _ hm)
        · next hsk hdd =>
          rcases List.mem_cons.mp hm with heq | hm'
          · exact hdd heq.symm
          · exact h hm'

/-! ## `stripDD` lemmas and the shape of stripped normalized paths -/

theorem chSplit_cons_ne_ex (c : Char) (l : List Char) (hc : ¬ c = '/') :
    ∃ h t, chSplit l = h :: t ∧ chSplit (c :: l) = (c :: h) :: t := by
  obtain ⟨h0, t0, hht⟩ := List.exists_cons_of_ne_nil (chSplit_ne_nil l)
  exact ⟨h0, t0, hht, by rw [chSplit_cons_ne c l hc, hht]⟩

theorem stripDD_step (c : Char) (rest : List Char) (h : c = '/' ∨ c = '\\') :
    stripDD ('.' :: '.' :: c :: rest) = stripDD rest := by
  simp [stripDD, h]

theorem stripDD_stop (c : Char) (rest : List Char) (h : ¬ (c = '/' ∨ c = '\\')) :
    stripDD ('.' :: '.' :: c :: rest) = '.' :: '.' :: c :: rest := by
  simp [stripDD, h]

theorem stripDD_no_match (l : List Char)
    (hl : ∀ (c : Char) (rest : List Char), l ≠ '.' :: '.' :: c :: rest) :
    stripDD l = l := by
  rw [stripDD.eq_def]
  split
  next c rest => exact absurd rfl (hl c rest)
  next => rfl

theorem startsDD_no_match (l : List Char)
    (hl : ∀ (c : Char) (rest : List Char), l ≠ '.' :: '.' :: c :: rest) :
    startsDD l = false := by
  rw [startsDD.eq_def]
  split
  next c rest => exact absurd rfl (hl c rest)
  next => rfl

theorem stripDD_fix (l : List Char) : startsDD (stripDD l) = false := by
  induction l using stripDD.induct with
  | case1 c rest hsep ih =>
    rw [stripDD_step c rest hsep]
    exact ih
  | case2 c rest hsep =>
    rw [stripDD_stop c rest hsep]
    simp only [startsDD]
    exact decide_eq_false hsep
  | case3 l hl =>
    rw [stripDD_no_match l (by intro c rest heq; exact hl c rest heq)]
    exact startsDD_no_match l (by intro c rest heq; exact hl c rest heq)

theorem DDRun_cons_dd {xs : List (List Char)} (h : DDRun (ddC :: xs)) : DDRun xs := by
  obtain ⟨k, ys, heq, hys⟩ := h
  cases k with
  | zero =>
    simp only [List.replicate_zero, List.nil_append] at heq
    subst heq
    exact absurd (List.Mem.head _) hys
  | succ k' =>
    rw [List.replicate_succ, List.cons_append] at heq
    injection heq with h1 h2
    exact ⟨k', ys, h2, hys⟩

theorem DDRun_replace_head {s0 : List Char} {t : List (List Char)}
    (h : DDRun (s0 :: t)) (hs : s0 ≠ ddC) (h0 : List Char) : DDRun (h0 :: t) := by
  obtain ⟨k, ys, heq, hys⟩ := h
  cases k with
  | zero =>
    simp only [List.replicate_zero, List.nil_append] at heq
    subst heq
    have ht : ddC ∉ t := fun hm => hys (List.mem_cons_of_mem _ hm)
    by_cases hh : h0 = ddC
    · exact ⟨1, t, by simp [hh, List.replicate], ht⟩
    · refine ⟨0, h0 :: t, by simp, ?_⟩
      intro hm
      rcases List.mem_cons.mp hm with he | hm'
      · exact hh he.symm
      · exact ht hm'
  | succ k' =>
    rw [List.replicate_succ, List.cons_append] at heq
    injection heq with h1 h2
    exact absurd h1 hs

theorem stripDD_DDRun (l : List Char) (h : DDRun (chSplit l)) :
    DDRun (chSplit (stripDD l)) := by
  induction l using stripDD.induct with
  | case1 c rest hsep ih =>
    rw [stripDD_step c rest hsep]
    apply ih
    rcases hsep with h1 | h1
    · subst h1
      rw [show ('.' :: '.' :: '/' :: rest) = (['.', '.'] ++ '/' :: rest : List Char) from rfl,
        chSplit_append ['.', '.'] rest (by decide)] at h
      exact DDRun_cons_dd h
    · subst h1
      obtain ⟨h0, t0, hht⟩ := List.exists_cons_of_ne_nil (chSplit_ne_nil rest)
      have ha : chSplit ('\\' :: rest) = ('\\' :: h0) :: t0 := by
        rw [chSplit_cons_ne _ _ (by decide), hht]
      have hb : chSplit ('.' :: '\\' :: rest) = ('.' :: '\\' :: h0) :: t0 := by
        rw [chSplit_cons_ne _ _ (by decide), ha]
      have hc2 : chSplit ('.' :: '.' :: '\\' :: rest) = ('.' :: '.' :: '\\' :: h0) :: t0 := by
        rw [chSplit_cons_ne _ _ (by decide), hb]
      rw [hc2] at h
      rw [hht]
      refine DDRun_replace_head h ?_ h0
      intro heq
      have := congrArg List.length heq
      simp [ddC] at this
  | case2 c rest hsep =>
    rw [stripDD_stop c rest hsep]
    exact h
  | case3 l hl =>
    rw [stripDD_no_match l (by intro c rest heq; exact hl c rest heq)]
    exact h

theorem DDRun_fix_good (np : List Char) (hrun : DDRun (chSplit np))
    (hfix : startsDD np = false) : np = ddC ∨ ddC ∉ chSplit np := by
  obtain ⟨k, ys, heq, hys⟩ := hrun
  cases k with
  | zero =>
    right
    rw [heq]
    simpa using hys
  | succ k' =>
    rw [List.replicate_succ, List.cons_append] at heq
    cases htail : List.replicate k' ddC ++ ys with
    | nil =>
      left
      have hsp : chSplit np = [ddC] := by rw [heq, htail]
      have h2 := chJoin_chSplit np
      rw [hsp] at h2
      exact h2.symm
    | cons x t =>
      exfalso
      have hsp : chSplit np = ddC :: x :: t := by rw [heq, htail]
      have h2 := chJoin_chSplit np
      rw [hsp] at h2
      have h3 : np = '.' :: '.' :: '/' :: chJoin (x :: t) := by rw [← h2]; rfl
      rw [h3] at hfix
      simp [startsDD] at hfix

/-- The normalized form of any user path splits with its `..` segments
(if any) forming an initial run. -/
theorem normalize_ddRun (u : String) : DDRun (chSplit (posixNormalize u).data) := by
  rw [posixNormalize]
  by_cases h0 : u = ""
  · rw [if_pos h0]
    exact ⟨0, _, rfl, by decide⟩
  · rw [if_neg h0]
    by_cases h1 : strIsAbs u = true
    · rw [if_pos h1]
      have hnodd : ddC ∉ normPartsC false (chSplit u.data) := by
        rw [normPartsC, List.mem_reverse]
        exact normAcc_false_noDD (chSplit u.data) [] (by simp)
      have hns : ∀ s ∈ normPartsC false (chSplit u.data), ¬ s.contains '/' = true := by
        intro s hs
        rw [normPartsC, List.mem_reverse] at hs
        rcases normAcc_mem false (chSplit u.data) [] s hs with ha | hb | hcc
        · simp at ha
        · exact chSplit_noSlash u.data s hb
        · subst hcc; decide
      cases hbody : chJoin (normPartsC false (chSplit u.data)) with
      | nil =>
        rw [show String.data (String.mk ('/' :: [] ++
            (if strEndsSlash u = true ∧ ([] : List Char) ≠ [] then ['/'] else [])))
            = '/' :: [] from by simp]
        exact ⟨0, _, rfl, by decide⟩
      | cons bc brest =>
        have hpne : normPartsC false (chSplit u.data) ≠ [] := by
          intro hp
          rw [hp] at hbody
          cases hbody
        have hsp : chSplit (bc :: brest) = normPartsC false (chSplit u.data) := by
          rw [← hbody]
          exact chSplit_chJoin _ hpne hns
        by_cases htr : strEndsSlash u = true ∧ (bc :: brest : List Char) ≠ []
        · rw [if_pos htr]
          refine ⟨0, [] :: (normPartsC false (chSplit u.data) ++ [[]]), ?_, ?_⟩
          · show chSplit ('/' :: (bc :: brest) ++ ['/']) = _
            rw [List.cons_append, chSplit_slash, chSplit_append_slash_end, hsp]
            rfl
          · intro hm
            rcases List.mem_cons.mp hm with he | hm'
            · exact absurd he (by decide)
            · rcases List.mem_append.mp hm' with h | h
              · exact hnodd h
              · exact absurd (List.mem_singleton.mp h) (by decide)
        · rw [if_neg htr]
          refine ⟨0, [] :: normPartsC false (chSplit u.data), ?_, ?_⟩
          · show chSplit ('/' :: (bc :: brest) ++ []) = _
            rw [List.append_nil, chSplit_slash, hsp]
            rfl
          · intro hm
            rcases List.mem_cons.mp hm with he | hm'
            · exact absurd he (by decide)
            · exact hnodd hm'
    · rw [if_neg h1]
      have hrun : DDRun (normPartsC true (chSplit u.data)) := normParts_ddRun true _
      have hns : ∀ s ∈ normPartsC true (chSplit u.data), ¬ s.contains '/' = true := by
        intro s hs
        rw [normPartsC, List.mem_reverse] at hs
        rcases normAcc_mem true (chSplit u.data) [] s hs with ha | hb | hcc
        · simp at ha
        · exact chSplit_noSlash u.data s hb
        · subst hcc; decide
      by_cases h2 : chJoin (normPartsC true (chSplit u.data)) = []
      · rw [if_pos h2]
        by_cases h3 : strEndsSlash u = true
        · rw [if_pos h3]
          exact ⟨0, _, rfl, by decide⟩
        · rw [if_neg h3]
          exact ⟨0, _, rfl, by decide⟩
      · rw [if_neg h2]
        have hpne : normPartsC true (chSplit u.data) ≠ [] := by
          intro hp
          rw [hp] at h2
          exact h2 rfl
        have hsp : chSplit (chJoin (normPartsC true (chSplit u.data)))
            = normPartsC true (chSplit u.data) := chSplit_chJoin _ hpne hns
        obtain ⟨k, ys, hkys, hys⟩ := hrun
        by_cases h3 : strEndsSlash u = true
        · rw [if_pos h3]
          refine ⟨k, ys ++ [[]], ?_, ?_⟩
          · show chSplit (chJoin (normPartsC true (chSplit u.data)) ++ ['/']) = _
            rw [chSplit_append_slash_end, hsp, hkys, List.append_assoc]
          · intro hm
            rcases List.mem_append.mp hm with h | h
            · exact hys h
            · exact absurd (List.mem_singleton.mp h) (by decide)
        · rw [if_neg h3]
          show DDRun (chSplit (chJoin (normPartsC true (chSplit u.data)) ++ []))
          rw [List.append_nil, hsp]
          exact ⟨k, ys, hkys, hys⟩

/-- The centerpiece: after normalization and stripping of leading
parent-directory sequences, a user path is either exactly `..` or
contains no `..` segment at all. -/
theorem stripped_normalized_good (u : String) :
    stripDD (posixNormalize u).data = ddC
      ∨ ddC ∉ chSplit (stripDD (posixNormalize u).data) :=
  DDRun_fix_good _ (stripDD_DDRun _ (normalize_ddRun u)) (stripDD_fix _)

/-! ## Resolving joined paths against an absolute base -/

theorem wfSegsAll_props (bs : List (List Char)) (h : wfSegsAll bs = true) :
    ∀ p ∈ bs, p ≠ [] ∧ ¬ p.contains '/' = true ∧ p ≠ ['.'] ∧ p ≠ ddC := by
  intro p hp
  rw [wfSegsAll, List.all_eq_true] at h
  have hq := h p hp
  rw [wfSeg] at hq
  exact of_decide_eq_true hq

theorem wfSegsAll_clean (bs : List (List Char)) (h : wfSegsAll bs = true) :
    ∀ p ∈ bs, cleanSeg p := by
  intro p hp
  obtain ⟨h1, _, h3, h4⟩ := wfSegsAll_props bs h p hp
  exact ⟨fun hor => by rcases hor with hh | hh; exacts [h1 hh, h3 hh], h4⟩

theorem mk_ne_empty (l : List Char) (h : l ≠ []) : String.mk l ≠ "" := by
  intro heq
  have := congrArg String.data heq
  exact h this

theorem absStr_ne_empty (bs : List (List Char)) : absStr bs ≠ "" :=
  mk_ne_empty _ (by simp [absC])

theorem strIsAbs_absStr (bs : List (List Char)) : strIsAbs (absStr bs) = true := rfl

theorem chSplit_absStr (bs : List (List Char)) (hwf : wfSegsAll bs = true)
    (hne : bs ≠ []) : chSplit (absStr bs).data = [] :: bs := by
  show chSplit ('/' :: chJoin bs) = _
  rw [chSplit_slash, chSplit_chJoin bs hne (fun p hp => (wfSegsAll_props bs hwf p hp).2.1)]

theorem normParts_false_cons_empty (xs : List (List Char)) :
    normPartsC false ([] :: xs) = normPartsC false xs := by
  rw [normPartsC, normPartsC, normAcc_cons, normStep1_skip false [] [] (Or.inl rfl)]

theorem normParts_false_clean (bs : List (List Char)) (h : ∀ p ∈ bs, cleanSeg p) :
    normPartsC false bs = bs := by
  rw [normPartsC, normAcc_clean_all false bs h []]
  simp

/-- Lemma: `path.resolve` is the identity on a well-formed absolute path. -/
theorem resolve_absStr (bs : List (List Char)) (hwf : wfSegsAll bs = true)
    (hne : bs ≠ []) : posixResolve (absStr bs) = absStr bs := by
  rw [posixResolve, if_pos (strIsAbs_absStr bs), chSplit_absStr bs hwf hne,
    normParts_false_cons_empty, normParts_false_clean bs (wfSegsAll_clean bs hwf)]
  rfl

/-- Resolving a `/`-headed string literal. -/
theorem posixResolve_mk_abs (l : List Char) :
    posixResolve (String.mk ('/' :: l))
      = String.mk ('/' :: chJoin (normPartsC false (chSplit ('/' :: l)))) := by
  rw [posixResolve, if_pos (show strIsAbs (String.mk ('/' :: l)) = true from rfl)]

/-- Resolving the normalization of an absolute path resolves the path
itself. -/
theorem resolve_normalize_abs (s : String) (hs : strIsAbs s = true) :
    posixResolve (posixNormalize s) = posixResolve s := by
  have hs2 : s ≠ "" := by
    intro h
    rw [h] at hs
    cases hs
  rw [posixNormalize, if_neg hs2, if_pos hs]
  have hclean : ∀ p ∈ normPartsC false (chSplit s.data), cleanSeg p := by
    intro p hp
    have hnd := normAcc_no_empty_dot false (chSplit s.data) [] (by simp) (by simp)
    have hdd : ddC ∉ normAccC false [] (chSplit s.data) :=
      normAcc_false_noDD (chSplit s.data) [] (by simp)
    rw [normPartsC, List.mem_reverse] at hp
    refine ⟨fun hor => ?_, fun hh => hdd (hh ▸ hp)⟩
    rcases hor with hh | hh
    · exact hnd.1 (hh ▸ hp)
    · exact hnd.2 (hh ▸ hp)
  have hns : ∀ p ∈ normPartsC false (chSplit s.data), ¬ p.contains '/' = true := by
    intro p hp
    rw [normPartsC, List.mem_reverse] at hp
    rcases normAcc_mem false (chSplit s.data) [] p hp with ha | hb | hcc
    · simp at ha
    · exact chSplit_noSlash s.data p hb
    · subst hcc
      decide
  cases hbody : chJoin (normPartsC false (chSplit s.data)) with
  | nil =>
    have hparts : normPartsC false (chSplit s.data) = [] := by
      by_contra hp
      exact (chJoin_ne_nil _ hp (fun q hq hq2 => (hclean q hq).1 (Or.inl hq2))) hbody
    rw [show (if strEndsSlash s = true ∧ ([] : List Char) ≠ [] then ['/'] else ([] : List Char))
        = [] from by simp]
    rw [show ({ data := ['/'] ++ [] } : String) = String.mk ('/' :: ([] : List Char))
        from rfl]
    rw [posixResolve_mk_abs []]
    conv_rhs => rw [posixResolve, if_pos hs]
    rw [hparts]
    rfl
  | cons bc brest =>
    have hparts : normPartsC false (chSplit s.data) ≠ [] := by
      intro hp
      rw [hp] at hbody
      cases hbody
    have hsp : chSplit (bc :: brest) = normPartsC false (chSplit s.data) := by
      rw [← hbody]
      exact chSplit_chJoin _ hparts hns
    have hcomp : normPartsC false (([] : List Char) :: normPartsC false (chSplit s.data))
        = normPartsC false (chSplit s.data) := by
      rw [normParts_false_cons_empty, normParts_false_clean _ hclean]
    by_cases htr : strEndsSlash s = true ∧ (bc :: brest : List Char) ≠ []
    · rw [if_pos htr]
      rw [show ({ data := '/' :: (bc :: brest) ++ ['/'] } : String)
          = String.mk ('/' :: ((bc :: brest) ++ ['/'])) from rfl]
      rw [posixResolve_mk_abs ((bc :: brest) ++ ['/'])]
      rw [chSplit_slash, chSplit_append_slash_end, hsp]
      rw [show ([] : List Char) :: (normPartsC false (chSplit s.data) ++ [[]])
          = (([] : List Char) :: normPartsC false (chSplit s.data)) ++ [[]] from rfl]
      rw [normPartsC, normAcc_append]
      rw [show normAccC false [] (([] : List Char) :: normPartsC false (chSplit s.data))
          = (normPartsC false (chSplit s.data)).reverse ++ [] from by
        rw [normAcc_cons, normStep1_skip false [] [] (Or.inl rfl),
          normAcc_clean_all false _ hclean []]]
      rw [show normAccC false ((normPartsC false (chSplit s.data)).reverse ++ []) [[]]
          = (normPartsC false (chSplit s.data)).reverse ++ [] from by
        rw [normAcc_cons, normStep1_skip false _ [] (Or.inl rfl)]
        rfl]
      conv_rhs => rw [posixResolve, if_pos hs]
      simp [normPartsC]
    · rw [if_neg htr]
      rw [show ({ data := '/' :: (bc :: brest) ++ [] } : String)
          = String.mk ('/' :: (bc :: brest)) from by rw [List.append_nil]]
      rw [posixResolve_mk_abs (bc :: brest)]
      rw [chSplit_slash, hsp, hcomp]
      conv_rhs => rw [posixResolve, if_pos hs]

theorem data_append_slash (a : String) (np : List Char) :
    (a ++ "/" ++ String.mk np).data = a.data ++ '/' :: np := by
  rw [String.data_append, String.data_append]
  rw [slash_data, List.append_assoc]
  rfl

theorem strIsAbs_of_data {s : String} {l : List Char} (h : s.data = '/' :: l) :
    strIsAbs s = true := by
  rw [strIsAbs, h]
  rfl

theorem posixJoin_absStr_mk (bs : List (List Char)) (np : List Char) (hnp : np ≠ []) :
    posixJoin (absStr bs) (String.mk np)
      = posixNormalize (absStr bs ++ "/" ++ String.mk np) := by
  rw [posixJoin, if_neg (fun hand => absStr_ne_empty bs hand.1),
    if_neg (absStr_ne_empty bs), if_neg (mk_ne_empty np hnp)]

theorem reverse_decomp (bs : List (List Char)) (hne : bs ≠ []) :
    ∃ last init, bs = init ++ [last] ∧ bs.reverse = last :: init.reverse
      ∧ bs.dropLast = init := by
  refine ⟨bs.getLast hne, bs.dropLast, (List.dropLast_append_getLast hne).symm, ?_, rfl⟩
  conv_lhs => rw [← List.dropLast_append_getLast hne]
  rw [List.reverse_append]
  rfl

/-- The resolved candidate path of `validateAndResolvePath` is either
an extension of the base (the base itself included) or the base's
parent directory. -/
theorem resolvedPathOf_tri (bs : List (List Char)) (u : String)
    (hwf : wfSegsAll bs = true) (hne : bs ≠ []) :
    (∃ es, resolvedPathOf (absStr bs) u = absStr (bs ++ es))
      ∨ resolvedPathOf (absStr bs) u = absStr bs.dropLast := by
  have hdata : ∀ np : List Char,
      (absStr bs ++ "/" ++ String.mk np).data = '/' :: (chJoin bs ++ '/' :: np) := by
    intro np
    rw [data_append_slash]
    rfl
  have hcompute : ∀ np : List Char, np ≠ [] →
      resolvedPathOf (absStr bs) u
        = posixResolve (absStr bs ++ "/" ++ String.mk np)
        → resolvedPathOf (absStr bs) u
          = String.mk ('/' :: chJoin (normPartsC false (bs ++ chSplit np))) := by
    intro np hnp heq
    rw [heq, posixResolve, if_pos (strIsAbs_of_data (hdata np)), hdata np,
      chSplit_slash,
      chSplit_chJoin_append bs np hne (fun p hp => (wfSegsAll_props bs hwf p hp).2.1),
      normParts_false_cons_empty]
  have hbsrev : normAccC false [] bs = bs.reverse := by
    rw [normAcc_clean_all false bs (wfSegsAll_clean bs hwf) [], List.append_nil]
  rcases stripped_normalized_good u with hdd | hclean
  · right
    have hjoin : resolvedPathOf (absStr bs) u
        = posixResolve (absStr bs ++ "/" ++ String.mk ddC) := by
      rw [resolvedPathOf, stripDDStr, hdd, posixJoin_absStr_mk bs ddC (by decide),
        resolve_normalize_abs _ (strIsAbs_of_data (hdata ddC))]
    rw [hcompute ddC (by decide) hjoin]
    have hsplit : chSplit ddC = [ddC] := chSplit_no_slash_eq ddC (by decide)
    rw [hsplit, normPartsC, normAcc_append, hbsrev]
    obtain ⟨last, init, hdec, hrev, hdrop⟩ := reverse_decomp bs hne
    have hlast : last ≠ ddC := by
      have := (wfSegsAll_props bs hwf last (by rw [hdec]; simp)).2.2.2
      exact this
    rw [hrev]
    rw [show normAccC false (last :: init.reverse) [ddC]
        = normStep1 false (last :: init.reverse) ddC from by
      rw [normAcc_cons]
      rfl]
    rw [show normStep1 false (last :: init.reverse) ddC = init.reverse from by
      simp only [normStep1]
      simp [hlast]
      decide]
    rw [List.reverse_reverse, hdrop]
    rfl
  · by_cases hnp : stripDD (posixNormalize u).data = []
    · left
      refine ⟨[], ?_⟩
      have hjoin : resolvedPathOf (absStr bs) u
          = posixResolve (posixNormalize (absStr bs)) := by
        rw [resolvedPathOf, stripDDStr, hnp, posixJoin,
          if_neg (fun hand => absStr_ne_empty bs hand.1),
          if_neg (absStr_ne_empty bs),
          if_pos (show String.mk ([] : List Char) = "" from rfl)]
      rw [hjoin, resolve_normalize_abs _ (strIsAbs_absStr bs), resolve_absStr bs hwf hne,
        List.append_nil]
    · left
      refine ⟨keptSegs (chSplit (stripDD (posixNormalize u).data)), ?_⟩
      have hjoin : resolvedPathOf (absStr bs) u
          = posixResolve (absStr bs ++ "/" ++ String.mk (stripDD (posixNormalize u).data)) := by
        rw [resolvedPathOf, stripDDStr, posixJoin_absStr_mk bs _ hnp,
          resolve_normalize_abs _ (strIsAbs_of_data (hdata _))]
      rw [hcompute _ hnp hjoin, normPartsC, normAcc_append, hbsrev,
        normAcc_noDD false _ bs.reverse hclean, List.reverse_append,
        List.reverse_reverse, List.reverse_reverse]
      rfl

theorem listPrefix_self_append : ∀ (x z : List Char), listPrefix x (x ++ z) = true := by
  intro x
  induction x with
  | nil => intro z; rfl
  | cons c x2 ih => intro z; simp [listPrefix, ih]

theorem listPrefix_append_same (x y z : List Char) :
    listPrefix (x ++ y) (x ++ z) = listPrefix y z := by
  induction x with
  | nil => rfl
  | cons c x2 ih => simp [listPrefix, ih]

theorem listPrefix_le_length : ∀ (p l : List Char), listPrefix p l = true →
    p.length ≤ l.length := by
  intro p
  induction p with
  | nil => intro l _; simp
  | cons c p2 ih =>
    intro l h
    cases l with
    | nil => cases h
    | cons d l2 =>
      rw [listPrefix] at h
      by_cases hcd : c = d
      · rw [if_pos hcd] at h
        simpa using ih l2 h
      · rw [if_neg hcd] at h
        cases h

theorem withinRoot_extension (bs es : List (List Char)) (hne : bs ≠ []) :
    withinRoot (absStr bs) (absStr (bs ++ es)) = true := by
  cases es with
  | nil =>
    rw [List.append_nil]
    exact decide_eq_true (Or.inl rfl)
  | cons e es2 =>
    have habs : absStr (bs ++ e :: es2) = String.mk (absC bs ++ '/' :: chJoin (e :: es2)) := by
      rw [absStr, absC, chJoin_append_cons bs (e :: es2) hne (by simp)]
      rfl
    have hsw : strStartsWith (absStr (bs ++ e :: es2)) (absStr bs ++ "/") = true := by
      rw [strStartsWith, habs, String.data_append, slash_data]
      show listPrefix (absC bs ++ ['/']) (absC bs ++ '/' :: chJoin (e :: es2)) = true
      rw [show (absC bs ++ '/' :: chJoin (e :: es2) : List Char)
          = (absC bs ++ ['/']) ++ chJoin (e :: es2) from by
        rw [List.append_assoc]
        rfl]
      exact listPrefix_self_append _ _
    exact decide_eq_true (Or.inr hsw)

theorem not_startsWith_parent (bs : List (List Char)) (hwf : wfSegsAll bs = true)
    (hne : bs ≠ []) : strStartsWith (absStr bs.dropLast) (absStr bs) = false := by
  apply Bool.eq_false_iff.mpr
  intro h
  have hlen := listPrefix_le_length _ _ h
  obtain ⟨last, init, hdec, hrev, hdrop⟩ := reverse_decomp bs hne
  have hlast : last ≠ [] := (wfSegsAll_props bs hwf last (by rw [hdec]; simp)).1
  have hlastlen : 1 ≤ last.length := by
    cases hl : last with
    | nil => exact absurd hl hlast
    | cons a t => simp
  rw [hdrop] at hlen
  show False
  cases init with
  | nil =>
    rw [hdec] at hlen
    show False
    have h1 : ((absStr ([] ++ [last])).data).length = 1 + last.length := by
      show ('/' :: chJoin [last]).length = _
      simp [chJoin]
      omega
    have h2 : ((absStr ([] : List (List Char))).data).length = 1 := rfl
    omega
  | cons i0 irest =>
    have h1 : ((absStr bs).data).length
        = 1 + (chJoin (i0 :: irest)).length + 1 + last.length := by
      show ('/' :: chJoin bs).length = _
      rw [hdec, chJoin_append_cons (i0 :: irest) [last] (by simp) (by simp)]
      simp [chJoin]
      omega
    have h2 : ((absStr (i0 :: irest)).data).length = 1 + (chJoin (i0 :: irest)).length := by
      show ('/' :: chJoin (i0 :: irest)).length = _
      simp
      omega
    omega

/-- C1 (amended): if the requested file path, after normalization and
after stripping of any leading `../` (or `..\`) run, resolves outside
the extraction root, then `getSpecificFile` raises the invalid-path
(`InvalidParams`) error without performing any filesystem access. -/
theorem getSpecificFile_outside_rejected (ops : FSOps) (bs : List (List Char)) (u : String)
    (hwf : wfSegsAll bs = true) (hne : bs ≠ [])
    (hout : withinRoot (absStr bs) (resolvedPathOf (absStr bs) u) = false) :
    getSpecificFile ops (absStr bs) u
      = (.error (.mcp .invalidParams
          "Invalid file path: MCP error -32602: Access denied: Path traversal attempt detected"),
        []) := by
  rcases resolvedPathOf_tri bs u hwf hne with ⟨es, hres⟩ | hres
  · exfalso
    rw [hres, withinRoot_extension bs es hne] at hout
    cases hout
  · have hrej : strStartsWith (resolvedPathOf (absStr bs) u)
        (posixResolve (absStr bs)) = false := by
      rw [resolve_absStr bs hwf hne, hres]
      exact not_startsWith_parent bs hwf hne
    have hv : validateAndResolvePath (absStr bs) u
        = .error ⟨.invalidParams, "Access denied: Path traversal attempt detected"⟩ := by
      rw [validateAndResolvePath, if_neg (fun hcon => by rw [hrej] at hcon; cases hcon)]
    simp only [getSpecificFile, hv]
    rfl

/-- Witness for `getSpecificFile_outside_rejected`: for the root `/a/b`
the request `..` resolves to `/a`, outside the root, and is rejected
with the invalid-params error before any filesystem access. -/
theorem getSpecificFile_outside_rejected_witness :
    wfSegsAll [['a'], ['b']] = true
      ∧ withinRoot (absStr [['a'], ['b']]) (resolvedPathOf (absStr [['a'], ['b']]) "..") = false
      ∧ getSpecificFile fsNone (absStr [['a'], ['b']]) ".."
        = (.error (.mcp .invalidParams
            "Invalid file path: MCP error -32602: Access denied: Path traversal attempt detected"),
          []) :=
  ⟨by decide, by decide,
    getSpecificFile_outside_rejected fsNone [['a'], ['b']] ".." (by decide) (by decide)
      (by decide)⟩

/-! ## Claim C10: the extraction directory stays inside the temp directory -/

theorem validatePackageName_ok_pattern (s : String)
    (h : validatePackageName s = .ok ()) : npmNamePattern s = true := by
  by_contra hp
  rw [validatePackageName, if_pos hp] at h
  cases h

theorem segOk_chars (l : List Char) (h : segOkChars l = true) :
    ∀ c ∈ l, nameRestChar c = true := by
  cases l with
  | nil => cases h
  | cons c0 cs =>
    rw [segOkChars, Bool.and_eq_true] at h
    intro c hc
    rcases List.mem_cons.mp hc with rfl | hc2
    · exact decide_eq_true (Or.inl h.1)
    · exact List.all_eq_true.mp h.2 c hc2

theorem segOk_head (l : List Char) (h : segOkChars l = true) :
    ∃ c0 cs, l = c0 :: cs ∧ nameFirstChar c0 = true := by
  cases l with
  | nil => cases h
  | cons c0 cs =>
    rw [segOkChars, Bool.and_eq_true] at h
    exact ⟨c0, cs, rfl, h.1⟩

theorem npmNamePattern_parts (s : String) (h : npmNamePattern s = true) :
    (∃ c0 rest, s.data = c0 :: rest ∧ (c0 = '@' ∨ nameFirstChar c0 = true))
    ∧ ∀ c ∈ s.data, nameRestChar c = true ∨ c = '@' ∨ c = '/' := by
  rw [npmNamePattern.eq_def] at h
  split at h
  next rest heq =>
    split at h
    next a b heq2 =>
      rw [Bool.and_eq_true] at h
      have hj := chJoin_chSplit rest
      rw [heq2] at hj
      have hrest : rest = a ++ '/' :: b := by
        rw [← hj]
        rfl
      constructor
      · exact ⟨'@', rest, heq, Or.inl rfl⟩
      · intro c hc
        rw [heq] at hc
        rcases List.mem_cons.mp hc with rfl | hc2
        · exact Or.inr (Or.inl rfl)
        · rw [hrest] at hc2
          rcases List.mem_append.mp hc2 with hma | hmb
          · exact Or.inl (segOk_chars a h.1 c hma)
          · rcases List.mem_cons.mp hmb with rfl | hmb2
            · exact Or.inr (Or.inr rfl)
            · exact Or.inl (segOk_chars b h.2 c hmb2)
    next heq2 => cases h
  next l2 hmis =>
    obtain ⟨c0, cs, hl, hfirst⟩ := segOk_head s.data h
    exact ⟨⟨c0, cs, hl, Or.inr hfirst⟩, fun c hc => Or.inl (segOk_chars s.data h c hc)⟩

theorem sanitize_props (s : String) (hpat : npmNamePattern s = true) :
    (sanitizePkgName s).data ≠ []
    ∧ (∀ c ∈ (sanitizePkgName s).data, c ≠ '/' ∧ c ≠ '\\')
    ∧ sanitizePkgName s ≠ "."
    ∧ sanitizePkgName s ≠ ".." := by
  obtain ⟨⟨c0, rest, hdata, hhead⟩, hchars⟩ := npmNamePattern_parts s hpat
  have hsan : (sanitizePkgName s).data
      = s.data.map (fun c => if c = '@' ∨ c = '/' then '_' else c) := rfl
  have hheadfact : ∀ (t : List Char),
      (sanitizePkgName s).data = '.' :: t → False := by
    intro t ht
    rw [hsan, hdata, List.map_cons] at ht
    injection ht with hd1 _
    by_cases hrep : c0 = '@' ∨ c0 = '/'
    · rw [if_pos hrep] at hd1
      cases hd1
    · rw [if_neg hrep] at hd1
      subst hd1
      rcases hhead with h1 | h1
      · cases h1
      · exact absurd h1 (by decide)
  refine ⟨?_, ?_, ?_, ?_⟩
  · rw [hsan, hdata]
    simp
  · intro c hc
    rw [hsan] at hc
    rcases List.mem_map.mp hc with ⟨c2, hc2, rfl⟩
    by_cases hrep : c2 = '@' ∨ c2 = '/'
    · rw [if_pos hrep]
      exact ⟨by decide, by decide⟩
    · rw [if_neg hrep]
      rcases hchars c2 hc2 with hrc | h2 | h3
      · constructor
        · intro heq
          subst heq
          exact absurd hrc (by decide)
        · intro heq
          subst heq
          exact absurd hrc (by decide)
      · exact absurd (Or.inl h2) hrep
      · exact absurd (Or.inr h3) hrep
  · intro heq
    exact hheadfact [] (by rw [heq])
  · intro heq
    exact hheadfact ['.'] (by rw [heq])

theorem strEndsSlash_join_seg (bs : List (List Char)) (p : List Char)
    (hp1 : p ≠ []) (hp2 : ¬ p.contains '/' = true) :
    strEndsSlash (absStr bs ++ "/" ++ String.mk p) = false := by
  show (match (absStr bs ++ "/" ++ String.mk p).data.getLast? with
    | some '/' => true
    | _ => false) = false
  rw [data_append_slash]
  rw [show ((absStr bs).data ++ '/' :: p : List Char)
      = ((absStr bs).data ++ ['/']) ++ p from by rw [List.append_assoc]; rfl]
  rw [List.getLast?_append_of_ne_nil _ hp1]
  cases hg : p.getLast? with
  | none => rfl
  | some c =>
    have hcin := List.mem_of_mem_getLast? hg
    have hc : c ≠ '/' := fun heq => (ncontains_of hp2) (heq ▸ hcin)
    split
    next heq =>
      injection heq with h2
      exact absurd h2 hc
    next => rfl

theorem posixJoin_seg (bs : List (List Char)) (p : List Char)
    (hwf : wfSegsAll bs = true) (hne : bs ≠ [])
    (hp2 : ¬ p.contains '/' = true) (hpc : cleanSeg p) :
    posixJoin (absStr bs) (String.mk p) = absStr (bs ++ [p]) := by
  have hp1 : p ≠ [] := fun hh => hpc.1 (Or.inl hh)
  have hdata2 : (absStr bs ++ "/" ++ String.mk p).data = '/' :: (chJoin bs ++ '/' :: p) := by
    rw [data_append_slash]
    rfl
  rw [posixJoin_absStr_mk bs p hp1, posixNormalize,
    if_neg (mk_ne_empty _ (by rw [hdata2]; simp)),
    if_pos (strIsAbs_of_data hdata2), hdata2, chSplit_slash,
    chSplit_chJoin_append bs p hne (fun q hq => (wfSegsAll_props bs hwf q hq).2.1),
    chSplit_no_slash_eq p hp2, normParts_false_cons_empty,
    normParts_false_clean _ (by
      intro q hq
      rcases List.mem_append.mp hq with hqa | hqb
      · exact wfSegsAll_clean bs hwf q hqa
      · rcases List.mem_singleton.mp hqb with rfl
        exact hpc),
    strEndsSlash_join_seg bs p hp1 hp2]
  rw [if_neg (fun hand => by cases hand.1)]
  rw [List.append_nil]
  rfl

/-- C10: for every package name accepted by `validatePackageName`, the
sanitized name (every `@` and `/` replaced by `_`) is nonempty,
contains no path separator, and is neither `.` nor `..`; the extraction
directory `path.join(tempDir, sanitizedName)` is therefore exactly one
path segment below the temp directory, and in particular can neither
escape the temp directory nor collide with it. -/
theorem extractPath_immediate_child (bs : List (List Char)) (name : String)
    (hval : validatePackageName name = .ok ())
    (hwf : wfSegsAll bs = true) (hne : bs ≠ []) :
    sanitizePkgName name ≠ ""
    ∧ (∀ c ∈ (sanitizePkgName name).data, c ≠ '/' ∧ c ≠ '\\')
    ∧ sanitizePkgName name ≠ "."
    ∧ sanitizePkgName name ≠ ".."
    ∧ extractPathFor (absStr bs) name = absStr (bs ++ [(sanitizePkgName name).data])
    ∧ extractPathFor (absStr bs) name ≠ absStr bs := by
  have hpat := validatePackageName_ok_pattern name hval
  obtain ⟨hne2, hsep, hdot, hdd2⟩ := sanitize_props name hpat
  have hnoslash : ¬ (sanitizePkgName name).data.contains '/' = true :=
    ncontains_mk (fun hm => ((hsep '/' hm).1) rfl)
  have hclean : cleanSeg (sanitizePkgName name).data := by
    constructor
    · intro hor
      rcases hor with hh | hh
      · exact hne2 hh
      · exact hdot (String.ext hh)
    · intro hh
      exact hdd2 (String.ext hh)
  have hjoin : extractPathFor (absStr bs) name
      = absStr (bs ++ [(sanitizePkgName name).data]) := by
    rw [extractPathFor,
      show sanitizePkgName name = String.mk ((sanitizePkgName name).data) from rfl]
    exact posixJoin_seg bs _ hwf hne hnoslash hclean
  refine ⟨fun heq => hne2 (congrArg String.data heq), hsep, hdot, hdd2, hjoin, ?_⟩
  rw [hjoin]
  intro heq
  have hd := congrArg String.data heq
  have hch : chJoin (bs ++ [(sanitizePkgName name).data]) = chJoin bs := by
    injection hd
  rw [chJoin_append_cons bs [(sanitizePkgName name).data] hne (by simp)] at hch
  have hlen := congrArg List.length hch
  simp [chJoin] at hlen

/-- Witness for `extractPath_immediate_child` at the scoped name
`@scope/pkg` and temp directory `/tmp`. -/
theorem extractPath_immediate_child_witness :
    validatePackageName "@scope/pkg" = .ok ()
      ∧ wfSegsAll [['t', 'm', 'p']] = true
      ∧ extractPathFor (absStr [['t', 'm', 'p']]) "@scope/pkg"
        = absStr ([['t', 'm', 'p']] ++ [(sanitizePkgName "@scope/pkg").data]) :=
  ⟨rfl, by decide,
    (extractPath_immediate_child [['t', 'm', 'p']] "@scope/pkg" rfl (by decide)
      (by decide)).2.2.2.2.1⟩

end NpmMcp
